import Mathlib

/-!
Verification of the sheet-atlas documentation utilities
(`update-tech-debt-index.py`, `session-archive.py`).

Strings are embedded as `List Char`; Python's `str` operations
(`startswith`, slicing, `split`, `strip`, `re.search` for the literal
patterns used, `re.sub` for the region pattern, and the heading regex
`^#\s+(.+)$` in MULTILINE mode) are translated into executable Lean
functions below.  Filesystem effects are modelled by explicit state
(`Option` file contents, existence oracles).
-/

namespace SheetAtlas

/-- Strings from the Python sources are embedded as lists of characters. -/
abbrev LC := List Char

/-- Embed a Lean string literal as a character list. -/
def toL (s : String) : LC := s.toList

/-- The characters stripped by Python's default `str.strip` (ASCII range). -/
def isWS (c : Char) : Bool :=
  c = ' ' || c = '\t' || c = '\n' || c = '\r' || c = '\x0b' || c = '\x0c'

/-- Python `str.lstrip()`. -/
def lstrip (l : LC) : LC := l.dropWhile isWS

/-- Python `str.rstrip()`. -/
def rstrip (l : LC) : LC := (l.reverse.dropWhile isWS).reverse

/-- Python `str.strip()`. -/
def pyStrip (l : LC) : LC := rstrip (lstrip l)

/-- Boolean prefix test, Python `str.startswith` on the embedded strings. -/
def listPre : LC → LC → Bool
  | [], _ => true
  | _ :: _, [] => false
  | a :: as, b :: bs => a = b && listPre as bs

/-- Index of the first occurrence of `pat` as a contiguous substring,
Python `re.search` of a literal pattern (`m.start()`), `none` if absent. -/
def findSub (pat : LC) : LC → Option Nat
  | [] => if listPre pat [] then some 0 else none
  | c :: cs => if listPre pat (c :: cs) then some 0 else (findSub pat cs).map (· + 1)

/-- Python `str.split('\n')`: always returns one more piece than there are
newlines; pieces contain no newline. -/
def splitNl : LC → List LC
  | [] => [[]]
  | c :: cs =>
    match splitNl cs with
    | [] => [[]]
    | t :: ts => if c = '\n' then [] :: t :: ts else (c :: t) :: ts

/-- Python `'\n'.join`. -/
def joinNl : List LC → LC
  | [] => []
  | [l] => l
  | l :: l₂ :: ls => l ++ '\n' :: joinNl (l₂ :: ls)

/-- Python `line.split(':', 1)` guarded by `':' in line`. -/
def splitColon (l : LC) : Option (LC × LC) :=
  if l.contains ':' then
    some (l.takeWhile (fun c => c ≠ ':'), (l.dropWhile (fun c => c ≠ ':')).drop 1)
  else none

/-- The quote-stripping step of `parse_frontmatter`: remove one layer of
surrounding double or single quotes when both ends match (Python
`value[1:-1]`, which empties a one-character quote string). -/
def stripQuotes (v : LC) : LC :=
  if v.head? = some '"' ∧ v.getLast? = some '"' then (v.drop 1).dropLast
  else if v.head? = some '\'' ∧ v.getLast? = some '\'' then (v.drop 1).dropLast
  else v

/-- Python `dict` assignment `d[k] = v`: overwrite in place, append new keys. -/
def dInsert (d : List (LC × LC)) (k v : LC) : List (LC × LC) :=
  if d.any (fun p => p.1 == k) then d.map (fun p => if p.1 == k then (k, v) else p)
  else d ++ [(k, v)]

/-- The body of `parse_frontmatter`'s loop over yaml lines. -/
def procLine (d : List (LC × LC)) (l : LC) : List (LC × LC) :=
  match splitColon l with
  | none => d
  | some (k, v) => dInsert d (pyStrip k) (stripQuotes (pyStrip v))

/-- Process a list of yaml lines in order, starting from the empty dict. -/
def procLines (ls : List LC) : List (LC × LC) := ls.foldl procLine []

/-- The frontmatter delimiter `"---"`. -/
def fence : LC := toL "---"

/-- The regex `r'\n---\n'` searched by `parse_frontmatter`/`extract_title`. -/
def nlFence : LC := toL "\n---\n"

/-- `parse_frontmatter` from update-tech-debt-index.py: requires the text to
start with `---`, finds the first `"\n---\n"` in `content[3:]`, then parses
`content[4 : m.start() + 4]` stripped and split on newlines. -/
def parse_frontmatter (content : LC) : List (LC × LC) :=
  if listPre fence content then
    match findSub nlFence (content.drop 3) with
    | some s => procLines (splitNl (pyStrip ((content.drop 4).take s)))
    | none => []
  else []

/-- Python `frontmatter.get(key, default)` (first matching key of the dict). -/
def dGet (d : List (LC × LC)) (k dflt : LC) : LC :=
  match d.find? (fun p => p.1 == k) with
  | some p => p.2
  | none => dflt

/-- The lines strictly between the opening delimiter line and the first later
line consisting solely of `---`.  Spec-side definition (from the words of the
specification, for the refinement comparison with `parse_frontmatter`). -/
def frontmatterSpecLines (content : LC) : List LC :=
  ((splitNl content).drop 1).takeWhile (fun l => l ≠ fence)

/-- The mapping the specification describes: the in-between lines processed by
the key/colon/strip/quote rule.  Spec-side definition for claim C5. -/
def frontmatterSpec (content : LC) : List (LC × LC) :=
  procLines (frontmatterSpecLines content)

/-- Chars of the current line (up to the next newline). -/
def takeLine (l : LC) : LC := l.takeWhile (fun c => c ≠ '\n')

/-- Drop through the end of the current line, landing after its newline. -/
def dropLine (l : LC) : LC := (l.dropWhile (fun c => c ≠ '\n')).drop 1

/-- Attempt of the regex `#\s+(.+)$` at a line start, `rest` being the text
after the `#`.  Greedy `\s+` with backtracking: if a non-whitespace character
follows the maximal whitespace run, the group is the rest of its line; if the
whole remainder is whitespace, the group is the last non-newline whitespace
character after the first (backtracking hands exactly one character to `(.+)`,
and all characters between it and the end are newlines by maximality). -/
def matchH (rest : LC) : Option LC :=
  let w := (rest.takeWhile isWS).length
  if w = 0 then none
  else if w < rest.length then some (takeLine (rest.drop w))
  else
    match ((rest.drop 1).filter (fun c => c ≠ '\n')).getLast? with
    | some c => some [c]
    | none => none

/-- Fuel-indexed scanner for the heading regex; the fuel only bounds the
number of line starts tried, and `l.length` always suffices since each step
drops at least one character. -/
def findHeadingFuel : Nat → LC → Option LC
  | 0, _ => none
  | fuel + 1, l =>
    match l with
    | [] => none
    | c :: cs =>
      match (if c = '#' then matchH cs else none) with
      | some g => some g
      | none => findHeadingFuel fuel (dropLine (c :: cs))

/-- `re.search(r'^#\s+(.+)$', content, re.MULTILINE)`: try each line start in
order (leftmost match), returning the group of the first success. -/
def findHeading (l : LC) : Option LC := findHeadingFuel l.length l

/-- The fixed placeholder title. -/
def untitled : LC := toL "Untitled"

/-- The frontmatter skip done by `extract_title`: note the source computes
`content[end_match.end() + 4:]` where `end_match.end()` is relative to
`content[3:]`, i.e. it drops `s + 9` characters in absolute terms — one MORE
than the closing `"\n---\n"` (which ends at absolute index `s + 8`). -/
def skipFrontmatter (content : LC) : LC :=
  if listPre fence content then
    match findSub nlFence (content.drop 3) with
    | some s => content.drop (s + 9)
    | none => content
  else content

/-- `extract_title` from update-tech-debt-index.py. -/
def extract_title (content : LC) : LC :=
  match findHeading (skipFrontmatter content) with
  | some t => pyStrip t
  | none => untitled

/-- The generated-section heading, first literal of the region pattern. -/
def HDG : LC := toL "## Current Issues by Priority"

/-- The anchor regex `r'\n## Integration'` of the insertion branch. -/
def ANCHOR : LC := toL "\n## Integration"

/-- Does `l` begin with a match of the lookahead `(?=\n## [^#])`?
(`[^#]` matches any character but `#`, newline included, under DOTALL.) -/
def isLA (l : LC) : Bool :=
  match l with
  | a :: b :: c :: d :: e :: _ => a = '\n' && b = '#' && c = '#' && d = ' ' && e ≠ '#'
  | _ => false

/-- Does the lookahead match anywhere in `l`? -/
def hasLA : LC → Bool
  | [] => false
  | c :: cs => isLA (c :: cs) || hasLA cs

/-- Index of the first position whose suffix matches the lookahead
(`l.length` if none): where the lazy `.*?` of the region pattern stops. -/
def findLA : LC → Nat
  | [] => 0
  | c :: cs => if isLA (c :: cs) then 0 else findLA cs + 1

/-- Fuel-indexed evaluator for the global substitution; each replaced region
consumes at least the 29 characters of the heading literal, so fuel
`s.length` always suffices (when the fuel runs out the string is empty and
is returned unchanged, as the match-free case does). -/
def subAllFuel (repl : LC) : Nat → LC → LC
  | 0, s => s
  | fuel + 1, s =>
    match findSub HDG s with
    | none => s
    | some p =>
      s.take p ++ repl ++
        subAllFuel repl fuel (s.drop (p + HDG.length + findLA (s.drop (p + HDG.length))))

/-- The match side of the global substitution with the replacement spliced
literally: by `subAllT_no_bs` below this is exactly the value of the faithful
`subAllT` whenever the replacement string contains no backslash (every
theorem that uses `subAll` carries that hypothesis). -/
def subAll (repl : LC) (s : LC) : LC := subAllFuel repl s.length s

/-- Octal digit test, for the replacement-template parser. -/
def octDigit (c : Char) : Bool := '0' ≤ c && c ≤ '7'

/-- Numeric value of an octal digit character. -/
def octVal (c : Char) : Nat := c.toNat - 48

/-- ASCII letter test (`re`'s `ASCIILETTERS`). -/
def asciiLetter (c : Char) : Bool :=
  ('a' ≤ c && c ≤ 'z') || ('A' ≤ c && c ≤ 'Z')

/-- The `ESCAPES` table of `re`'s template parser: the eight literal escapes
a string replacement may contain (`\a \b \f \n \r \t \v \\`). -/
def escChar (c : Char) : Option Char :=
  if c = 'a' then some (Char.ofNat 7)
  else if c = 'b' then some (Char.ofNat 8)
  else if c = 'f' then some (Char.ofNat 12)
  else if c = 'n' then some '\n'
  else if c = 'r' then some (Char.ofNat 13)
  else if c = 't' then some (Char.ofNat 9)
  else if c = 'v' then some (Char.ofNat 11)
  else if c = '\\' then some '\\'
  else none

/-- One piece of a parsed replacement template: a literal character, or a
reference to group 0 (the whole match).  The region pattern has no capture
groups — its `(?=...)` is a lookahead — so a reference to any group other
than 0 is `re.error`. -/
inductive TPiece
  | lit (c : Char)
  | group0
deriving DecidableEq

/-- Instantiate a parsed template at the text matched by one match. -/
def instTempl (matched : LC) : List TPiece → LC
  | [] => []
  | TPiece.lit c :: ps => c :: instTempl matched ps
  | TPiece.group0 :: ps => matched ++ instTempl matched ps

/-- One escape unit of `re`'s `parse_template`: given the text after a
backslash, the pieces the escape contributes and the remaining template, or
`none` when the parse raises (`re.error`, or `IndexError` for an unknown
group name — either way an uncaught exception).  Errors: a trailing
backslash (empty input), an unknown ASCII-letter escape (`\q`, `\x`, ...), a
reference to a group the pattern does not have (`\1` ... `\99`, `\g<name>`,
`\g<1>`, ...), a malformed `\g`, a three-octal-digit escape above `0o377`.
Parsed
successfully: the eight `escChar` escapes, a backslash before a non-letter
(kept verbatim together with its backslash), `\0` with up to two more octal
digits and `\ddd` with three octal digits (character escapes), and `\g<0>`
(the whole match, any number of zero digits). -/
def escStep : LC → Option (List TPiece × LC)
  | [] => none
  | d :: ds =>
    if d = 'g' then
      match ds with
      | [] => none
      | lt :: rest =>
        if lt = '<' then
          match rest.dropWhile (fun x => x ≠ '>') with
          | [] => none
          | _ :: after =>
            let name := rest.takeWhile (fun x => x ≠ '>')
            if name ≠ [] ∧ name.all (fun x => x.isDigit) then
              if name.all (fun x => x = '0') then some ([TPiece.group0], after)
              else none
            else none
        else none
    else if d = '0' then
      match ds with
      | e1 :: es =>
        if octDigit e1 then
          match es with
          | e2 :: es2 =>
            if octDigit e2 then
              some ([TPiece.lit (Char.ofNat (octVal e1 * 8 + octVal e2))], es2)
            else some ([TPiece.lit (Char.ofNat (octVal e1))], es)
          | [] => some ([TPiece.lit (Char.ofNat (octVal e1))], es)
        else some ([TPiece.lit (Char.ofNat 0)], ds)
      | [] => some ([TPiece.lit (Char.ofNat 0)], ds)
    else if d.isDigit then
      match ds with
      | e1 :: e2 :: es2 =>
        if octDigit d ∧ octDigit e1 ∧ octDigit e2 then
          if octVal d * 64 + octVal e1 * 8 + octVal e2 ≤ 255 then
            some ([TPiece.lit (Char.ofNat (octVal d * 64 + octVal e1 * 8 + octVal e2))], es2)
          else none
        else none
      | _ => none
    else
      match escChar d with
      | some e => some ([TPiece.lit e], ds)
      | none =>
        if asciiLetter d then none
        else some ([TPiece.lit '\\', TPiece.lit d], ds)

/-- `re`'s `parse_template` on a string replacement (fuel-indexed; the
template's length always suffices, each step consuming at least one
character and `escStep` returning a suffix of its input).  `none` is a
raised exception, as enumerated at `escStep`. -/
def parseTemplFuel : Nat → LC → Option (List TPiece)
  | _, [] => some []
  | 0, _ :: _ => none
  | fuel + 1, c :: cs =>
    if c = '\\' then
      match escStep cs with
      | none => none
      | some (ps, rest) => (parseTemplFuel fuel rest).map (fun qs => ps ++ qs)
    else (parseTemplFuel fuel cs).map (fun qs => TPiece.lit c :: qs)

/-- Template parse with adequate fuel. -/
def parseTempl (templ : LC) : Option (List TPiece) := parseTemplFuel templ.length templ

/-- The global substitution at an already parsed template: splice the
instantiated template over every match, scanning left to right; each match
runs from an occurrence of the heading literal to the first lookahead
position at or after the end of the literal, or to the end of the string. -/
def subAllPFuel (ps : List TPiece) : Nat → LC → LC
  | 0, s => s
  | fuel + 1, s =>
    match findSub HDG s with
    | none => s
    | some p =>
      s.take p ++
        instTempl ((s.drop p).take (HDG.length + findLA (s.drop (p + HDG.length)))) ps ++
        subAllPFuel ps fuel (s.drop (p + HDG.length + findLA (s.drop (p + HDG.length))))

/-- `re.sub(r'## Current Issues by Priority.*?(?=\n## [^#]|\Z)', templ, s,
flags=re.DOTALL)` with a string replacement's template semantics: the
template is parsed once (an invalid one raises `re.error` — `none` — with or
without matches), then every match is replaced by the template instantiated
at it. -/
def subAllT (templ s : LC) : Option LC :=
  (parseTempl templ).map (fun ps => subAllPFuel ps s.length s)

/-- The backslash-free value of `update_readme`'s text transform: replace the
region if the pattern occurs, else insert before the `\n## Integration`
anchor, else append after stripping trailing whitespace.
`updateTextE_no_bs` identifies it with the faithful `updateTextE` whenever
the fragment contains no backslash. -/
def updateText (frag content : LC) : LC :=
  if (findSub HDG content).isSome then subAll (rstrip frag ++ [ '\n' ]) content
  else
    match findSub ANCHOR content with
    | some i => content.take i ++ ('\n' :: frag) ++ ('\n' :: content.drop i)
    | none => rstrip content ++ toL "\n\n" ++ frag

/-- The text transform of `update_readme` with `re.sub`'s replacement
template semantics: `none` when `re.sub` raises `re.error` (possible only in
the replace branch, the one place a caller-controlled string is used as a
replacement). -/
def updateTextE (frag content : LC) : Option LC :=
  if (findSub HDG content).isSome then subAllT (rstrip frag ++ [ '\n' ]) content
  else
    match findSub ANCHOR content with
    | some i => some (content.take i ++ ('\n' :: frag) ++ ('\n' :: content.drop i))
    | none => some (rstrip content ++ toL "\n\n" ++ frag)

/-- Filesystem-level result of `update_readme`: README state afterwards, the
messages printed, whether an uncaught `re.error` escaped the function, and
the boolean it returned (meaningful only when nothing was raised). -/
structure UpdateResult where
  readme : Option LC
  printed : List LC
  raised : Bool
  ok : Bool
deriving DecidableEq

/-- `update_readme` from update-tech-debt-index.py over an explicit README
state: a missing README prints an error, writes nothing and returns False; a
replacement template on which `re.sub` raises propagates `re.error` before
the write, leaving the README unchanged; otherwise the transformed text is
written and True returned.  (The missing-file message's embedded path is
elided.) -/
def update_readme (fs : Option LC) (new_section : LC) : UpdateResult :=
  match fs with
  | none => ⟨none, [toL "ERROR: README not found"], false, false⟩
  | some content =>
    match updateTextE new_section content with
    | none => ⟨some content, [], true, false⟩
    | some out => ⟨some out, [], false, true⟩

/-- `exit(main())` around `update_readme`: 1 when `update_readme` returned
False, 0 when it returned True; an uncaught exception also ends the process
with exit code 1 (CPython, after printing the traceback); paired with the
final README state. -/
def mainExit (fs : Option LC) (new_section : LC) : Option LC × Nat :=
  ((update_readme fs new_section).readme,
   if (update_readme fs new_section).raised then 1
   else if (update_readme fs new_section).ok then 0 else 1)

/-- One scanned issue record (the dict built by `scan_issues`). -/
structure Issue where
  filename : LC
  title : LC
  priority : LC
  status : LC
  type : LC
  discovered : LC
deriving DecidableEq

/-- The record `scan_issues` builds for one file of the given text. -/
def mkIssue (filename content : LC) : Issue :=
  let fm := parse_frontmatter content
  { filename := filename
    title := extract_title content
    priority := dGet fm (toL "priority") (toL "low")
    status := dGet fm (toL "status") (toL "open")
    type := dGet fm (toL "type") (toL "unknown")
    discovered := dGet fm (toL "discovered") [] }

/-- Python `str.lower()` (ASCII). -/
def lowerL (l : LC) : LC := l.map Char.toLower

/-- Python `str.capitalize()`: first character upper, the rest lower. -/
def capitalizeL (l : LC) : LC :=
  match l with
  | [] => []
  | c :: cs => c.toUpper :: cs.map Char.toLower

/-- The `by_priority` dict of `generate_index_section` (fixed keys). -/
structure Buckets where
  high : List Issue
  medium : List Issue
  low : List Issue
deriving DecidableEq

/-- One step of the grouping loop: append to the case-folded priority's
bucket when it is a key, else to `low`. -/
def addIssue (b : Buckets) (i : Issue) : Buckets :=
  let p := lowerL i.priority
  if p = toL "high" then { b with high := b.high ++ [i] }
  else if p = toL "medium" then { b with medium := b.medium ++ [i] }
  else { b with low := b.low ++ [i] }

/-- Group all records, in order, starting from empty buckets. -/
def bucketsOf (issues : List Issue) : Buckets := issues.foldl addIssue ⟨[], [], []⟩

/-- Python string `<` (code-point lexicographic), for the filename sort key. -/
def lexLt : LC → LC → Bool
  | [], [] => false
  | [], _ :: _ => true
  | _ :: _, [] => false
  | a :: as, b :: bs =>
    if a.val < b.val then true
    else if b.val < a.val then false
    else lexLt as bs

/-- Stable insertion for the by-filename sort. -/
def insertByFn (x : Issue) : List Issue → List Issue
  | [] => [x]
  | y :: ys => if lexLt y.filename x.filename then y :: insertByFn x ys else x :: y :: ys

/-- `list.sort(key=lambda x: x['filename'])`, modelled by insertion sort. -/
def sortByFn (l : List Issue) : List Issue := l.foldr insertByFn []

/-- The line rendered for one record: ``- `filename` - title``. -/
def issueLine (i : Issue) : LC := toL "- `" ++ i.filename ++ toL "` - " ++ i.title

/-- The lines appended for one priority of `PRIORITY_ORDER`. -/
def sectionFor (p : LC) (b : Buckets) : List LC :=
  let pis := sortByFn (if p = toL "high" then b.high else if p = toL "medium" then b.medium else b.low)
  let label := capitalizeL p
  if pis.isEmpty then [toL "**" ++ label ++ toL " Priority:** None currently", []]
  else (toL "**" ++ label ++ toL " Priority:**") :: (pis.map issueLine ++ [[]])

/-- The fixed priority display order. -/
def PRIORITY_ORDER : List LC := [toL "high", toL "medium", toL "low"]

/-- The `lines` list built by `generate_index_section` (timestamp injected). -/
def indexLines (ts : LC) (issues : List Issue) : List LC :=
  [HDG, [], toL "*Auto-updated: " ++ ts ++ toL "*", []]
    ++ (PRIORITY_ORDER.map (fun p => sectionFor p (bucketsOf issues))).flatten

/-- `generate_index_section` with the `datetime.now()` line injected as `ts`. -/
def generate_index_section (ts : LC) (issues : List Issue) : LC :=
  joinNl (indexLines ts issues)

/-- Kind of a filesystem entry, for the archiver model. -/
inductive FKind
  | file
  | dir
deriving DecidableEq

/-- Which guard made the archiver `sys.exit(1)`. -/
inductive AFail
  | missingTranscript
  | copyFailed
deriving DecidableEq

/-- The parsed stdin JSON of session-archive.py; absent fields are `none`.
`cwd` is kept as an already-resolved component path. -/
structure SessionInput where
  session_id : Option LC
  transcript_path : Option LC
  cwd : Option (List LC)
  reason : Option LC

/-- Filesystem oracle for the archiver: the kind of the entry at a raw path
string (none = does not exist), and existence of a component-path directory. -/
structure ArchiveFS where
  kind : LC → Option FKind
  dirExists : List LC → Bool

/-- The marker folder name. -/
def memoryBank : LC := toL ".memory-bank"

/-- The ancestor walk of `find_project_root` with explicit fuel (the number
of components of the starting path always suffices, each step dropping one):
absolute paths are component lists, `[]` is the filesystem root, whose parent
is itself (so the loop stops before testing it, as in the source). -/
def findRootFuel (ex : List LC → Bool) (start : List LC) : Nat → List LC → List LC
  | 0, _ => start
  | fuel + 1, l =>
    match l with
    | [] => start
    | c :: cs =>
      if ex ((c :: cs) ++ [memoryBank]) then c :: cs
      else findRootFuel ex start fuel (c :: cs).dropLast

/-- `find_project_root` from session-archive.py (`.resolve()` modelled as the
identity on the already-absolute component paths used here). -/
def find_project_root (ex : List LC → Bool) (start : List LC) : List LC :=
  findRootFuel ex start start.length start

/-- Python `Path(s)` on the raw strings the archiver builds: the empty string
normalises to `'.'` (pathlib: `Path('')` is `Path('.')`). -/
def pathOf (s : LC) : LC := if s = [] then toL "." else s

/-- Observable outcome of one archiver run: process exit (0 = fell through
`main`, 1 = `sys.exit(1)`), which guard failed, the copy destination
(directory components, filename), and the defaulted values used. -/
structure ArchiveOutcome where
  exit : Nat
  failure : Option AFail
  dest : Option (List LC × LC)
  shortId : LC
  sessionIdUsed : LC
  reasonUsed : LC
deriving DecidableEq

/-- `main` of session-archive.py after a successful JSON parse.  `now` is the
`datetime.now().strftime("%Y-%m-%d_%H%M")` string, `dot` the resolution of
`Path('.')`.  `mkdir(parents=True, exist_ok=True)` is assumed to succeed;
`shutil.copy2` succeeds exactly on existing regular files (a directory raises,
caught and turned into `sys.exit(1)`).  Note `session_id[:8] if
len(session_id) >= 8 else session_id` is `take 8` in both branches. -/
def archive (fs : ArchiveFS) (now : LC) (dot : List LC) (inp : SessionInput) : ArchiveOutcome :=
  let session_id := inp.session_id.getD (toL "unknown")
  let tp := pathOf (inp.transcript_path.getD [])
  let reason := inp.reason.getD (toL "unknown")
  let cwd := inp.cwd.getD dot
  let root := find_project_root fs.dirExists cwd
  let ddir := root ++ [memoryBank, toL "sessions"]
  let short := session_id.take 8
  let fname := now ++ toL "_" ++ short ++ toL ".jsonl"
  if fs.kind tp = none then
    { exit := 1, failure := some .missingTranscript, dest := none,
      shortId := short, sessionIdUsed := session_id, reasonUsed := reason }
  else if fs.kind tp = some .file then
    { exit := 0, failure := none, dest := some (ddir, fname),
      shortId := short, sessionIdUsed := session_id, reasonUsed := reason }
  else
    { exit := 1, failure := some .copyFailed, dest := some (ddir, fname),
      shortId := short, sessionIdUsed := session_id, reasonUsed := reason }

/-! ### Lemmas about the embedded primitives -/

theorem listPre_length {p l : LC} (h : listPre p l = true) : p.length ≤ l.length := by
  induction p generalizing l with
  | nil => simp
  | cons a as ih =>
    cases l with
    | nil => simp [listPre] at h
    | cons b bs =>
      simp only [listPre, Bool.and_eq_true] at h
      have := ih h.2
      simp only [List.length_cons]
      omega

theorem listPre_iff_take {p l : LC} : listPre p l = true ↔ l.take p.length = p := by
  induction p generalizing l with
  | nil => simp [listPre]
  | cons a as ih =>
    cases l with
    | nil => simp [listPre]
    | cons b bs =>
      simp only [listPre, Bool.and_eq_true, decide_eq_true_eq, List.length_cons,
        List.take_succ_cons, List.cons.injEq, ih]
      constructor
      · rintro ⟨h1, h2⟩; exact ⟨h1.symm, h2⟩
      · rintro ⟨h1, h2⟩; exact ⟨h1.symm, h2⟩

theorem listPre_trans_append {p a : LC} (b : LC) (h : listPre p a = true) :
    listPre p (a ++ b) = true := by
  induction p generalizing a with
  | nil => simp [listPre]
  | cons x ps ih =>
    cases a with
    | nil => simp [listPre] at h
    | cons y as =>
      simp only [List.cons_append, listPre, Bool.and_eq_true] at *
      exact ⟨h.1, ih h.2⟩

theorem listPre_append_long {p a : LC} (b : LC) (h : p.length ≤ a.length) :
    listPre p (a ++ b) = listPre p a := by
  induction p generalizing a with
  | nil => simp [listPre]
  | cons x ps ih =>
    cases a with
    | nil => simp at h
    | cons y as =>
      simp only [List.cons_append, listPre, List.append_eq]
      simp only [List.length_cons] at h
      rw [ih (by omega)]

theorem listPre_split {p a b : LC} (h : listPre p (a ++ b) = true) (hl : a.length < p.length) :
    p.take a.length = a ∧ listPre (p.drop a.length) b = true := by
  induction a generalizing p with
  | nil =>
    exact ⟨by simp, by simpa using h⟩
  | cons y as ih =>
    cases p with
    | nil => simp at hl
    | cons x ps =>
      simp only [List.cons_append, listPre, Bool.and_eq_true, decide_eq_true_eq] at h
      simp only [List.length_cons] at hl
      obtain ⟨h1, h2⟩ := h
      obtain ⟨ih1, ih2⟩ := ih h2 (by omega)
      subst h1
      simp only [List.length_cons, List.take_succ_cons, List.cons.injEq, List.drop_succ_cons]
      exact ⟨⟨by simp, ih1⟩, ih2⟩

theorem listPre_mutual {p q r : LC} (hp : listPre p r = true) (hq : listPre q r = true)
    (hl : p.length ≤ q.length) : listPre p q = true := by
  rw [listPre_iff_take] at hp hq ⊢
  rw [← hq, List.take_take]
  rwa [Nat.min_eq_left hl]

theorem listPre_of_take {p t : LC} {m : Nat} (h : listPre p (t.take m) = true) :
    listPre p t = true := by
  have hlen := listPre_length h
  rw [listPre_iff_take] at h ⊢
  rw [List.take_take] at h
  have hm : min p.length m = p.length := by
    simp only [List.length_take] at hlen
    omega
  rwa [hm] at h

theorem findSub_some {pat s : LC} {p : Nat} (h : findSub pat s = some p) :
    listPre pat (s.drop p) = true ∧ ∀ i, i < p → listPre pat (s.drop i) = false := by
  induction s generalizing p with
  | nil =>
    simp only [findSub] at h
    split at h
    · next hp =>
      cases h
      exact ⟨by simpa using hp, by omega⟩
    · exact absurd h (by simp)
  | cons c cs ih =>
    simp only [findSub] at h
    split at h
    · next hp =>
      cases h
      exact ⟨by simpa using hp, by omega⟩
    · next hp =>
      rw [Option.map_eq_some'] at h
      obtain ⟨q, hq, rfl⟩ := h
      obtain ⟨h1, h2⟩ := ih hq
      refine ⟨by simpa using h1, ?_⟩
      intro i hi
      cases i with
      | zero =>
        simpa using eq_false_of_ne_true hp
      | succ j =>
        simpa using h2 j (by omega)

theorem findSub_none {pat s : LC} (hne : pat ≠ []) (h : findSub pat s = none) :
    ∀ i, listPre pat (s.drop i) = false := by
  induction s with
  | nil =>
    intro i
    cases pat with
    | nil => exact absurd rfl hne
    | cons x ps => simp [listPre]
  | cons c cs ih =>
    intro i
    simp only [findSub] at h
    split at h
    · exact absurd h (by simp)
    · next hp =>
      rw [Option.map_eq_none'] at h
      cases i with
      | zero => simpa using eq_false_of_ne_true hp
      | succ j => simpa using ih h j

theorem findSub_eq_of {pat s : LC} {p : Nat} (h1 : listPre pat (s.drop p) = true)
    (h2 : ∀ i, i < p → listPre pat (s.drop i) = false) : findSub pat s = some p := by
  induction s generalizing p with
  | nil =>
    cases p with
    | zero =>
      simp only [List.drop_nil] at h1
      simp [findSub, h1]
    | succ q =>
      have h0 := h2 0 (by omega)
      simp only [List.drop_nil] at h1 h0
      rw [h1] at h0
      cases h0
  | cons c cs ih =>
    cases p with
    | zero =>
      simp only [List.drop_zero] at h1
      simp [findSub, h1]
    | succ q =>
      have h0 := h2 0 (by omega)
      simp only [List.drop_zero] at h0
      simp only [findSub, h0]
      have hrec : findSub pat cs = some q :=
        ih (by simpa using h1) (fun i hi => by simpa using h2 (i + 1) (by omega))
      simp [hrec]

theorem findSub_shift {pat : LC} (a b : LC)
    (h : ∀ i, i < a.length → listPre pat ((a ++ b).drop i) = false) :
    findSub pat (a ++ b) = (findSub pat b).map (· + a.length) := by
  induction a with
  | nil => simp
  | cons c as ih =>
    simp only [List.cons_append, findSub, List.append_eq]
    rw [if_neg]
    · have hrec := ih (fun i hi => by simpa using h (i + 1) (by simp only [List.length_cons]; omega))
      rw [hrec]
      cases findSub pat b with
      | none => simp
      | some q =>
        simp only [Option.map_some', List.length_cons, Option.some.injEq]
        omega
    · have h0 := h 0 (by simp)
      simpa using h0

theorem drop_append_len (a b : LC) (n : Nat) :
    (a ++ b).drop (a.length + n) = b.drop n := by
  induction a with
  | nil => simp
  | cons c as ih => simpa [Nat.succ_add] using ih

theorem take_append_len (a b : LC) (n : Nat) :
    (a ++ b).take (a.length + n) = a ++ b.take n := by
  induction a with
  | nil => simp
  | cons c as ih => simp [Nat.succ_add, ih]

theorem rstrip_append_ws {c : Char} (l : LC) (h : isWS c = true) :
    rstrip (l ++ [c]) = rstrip l := by
  simp [rstrip, List.dropWhile_cons, h]

theorem rstrip_decomp (l : LC) : ∃ w, (∀ c ∈ w, isWS c = true) ∧ l = rstrip l ++ w := by
  refine ⟨(l.reverse.takeWhile isWS).reverse, ?_, ?_⟩
  · intro c hc
    rw [List.mem_reverse] at hc
    exact List.mem_takeWhile_imp hc
  · conv_lhs => rw [← l.reverse_reverse, ← List.takeWhile_append_dropWhile isWS l.reverse]
    rw [List.reverse_append]
    rfl

theorem head?_dropWhile {α : Type _} {p : α → Bool} {l : List α} {a : α}
    (h : (l.dropWhile p).head? = some a) : p a = false := by
  induction l with
  | nil => simp at h
  | cons x xs ih =>
    rw [List.dropWhile_cons] at h
    by_cases hx : p x
    · rw [if_pos hx] at h
      exact ih h
    · rw [if_neg hx] at h
      simp only [List.head?_cons, Option.some.injEq] at h
      subst h
      simpa using hx

theorem rstrip_getLast {l : LC} {c : Char} (h : (rstrip l).getLast? = some c) :
    isWS c = false := by
  unfold rstrip at h
  rw [List.getLast?_reverse] at h
  exact head?_dropWhile h

theorem rstrip_eq_nil {l : LC} (h : rstrip l = []) : ∀ c ∈ l, isWS c = true := by
  unfold rstrip at h
  rw [List.reverse_eq_nil_iff, List.dropWhile_eq_nil_iff] at h
  intro c hc
  exact h c (List.mem_reverse.mpr hc)

theorem pyStrip_eq_nil {l : LC} (h : pyStrip l = []) : ∀ c ∈ l, isWS c = true := by
  unfold pyStrip at h
  have h1 := rstrip_eq_nil h
  intro c hc
  rw [← List.takeWhile_append_dropWhile isWS l] at hc
  rcases List.mem_append.mp hc with h2 | h2
  · exact List.mem_takeWhile_imp h2
  · exact h1 c h2

theorem lstrip_append (x y : LC) :
    lstrip (x ++ y) = if lstrip x = [] then lstrip y else lstrip x ++ y := by
  induction x with
  | nil => simp [lstrip]
  | cons c cs ih =>
    by_cases hc : isWS c
    · simpa [lstrip, List.dropWhile_cons, hc] using ih
    · simp [lstrip, List.dropWhile_cons, hc]

theorem pyStrip_append_ws {c : Char} (x : LC) (h : isWS c = true) :
    pyStrip (x ++ [c]) = pyStrip x := by
  unfold pyStrip
  rw [lstrip_append]
  by_cases hx : lstrip x = []
  · rw [if_pos hx, hx]
    simp [lstrip, List.dropWhile, h]
  · rw [if_neg hx, rstrip_append_ws _ h]

theorem pyStrip_cons_ws {c : Char} (x : LC) (h : isWS c = true) :
    pyStrip (c :: x) = pyStrip x := by
  simp [pyStrip, lstrip, List.dropWhile_cons, h]

theorem splitNl_ne_nil (s : LC) : splitNl s ≠ [] := by
  induction s with
  | nil => simp [splitNl]
  | cons c cs ih =>
    simp only [splitNl]
    cases hs : splitNl cs with
    | nil => exact absurd hs ih
    | cons t ts =>
      split
      · simp
      · split <;> simp

theorem splitNl_cons_nl (s : LC) : splitNl ('\n' :: s) = [] :: splitNl s := by
  simp only [splitNl]
  cases h : splitNl s with
  | nil => exact absurd h (splitNl_ne_nil s)
  | cons t ts => simp

theorem splitNl_cons_ne {c : Char} (s : LC) (h : c ≠ '\n') :
    splitNl (c :: s) = (c :: (splitNl s).headI) :: (splitNl s).tail := by
  simp only [splitNl]
  cases hs : splitNl s with
  | nil => exact absurd hs (splitNl_ne_nil s)
  | cons t ts => simp [h]

theorem joinNl_cons (l : LC) (ls : List LC) (h : ls ≠ []) :
    joinNl (l :: ls) = l ++ '\n' :: joinNl ls := by
  cases ls with
  | nil => exact absurd rfl h
  | cons a as => rfl

theorem joinNl_cons_cons (c : Char) (t : LC) (ts : List LC) :
    joinNl ((c :: t) :: ts) = c :: joinNl (t :: ts) := by
  cases ts <;> rfl

theorem joinNl_nil_cons (t : LC) (ts : List LC) :
    joinNl ([] :: t :: ts) = '\n' :: joinNl (t :: ts) := rfl

theorem joinNl_splitNl (s : LC) : joinNl (splitNl s) = s := by
  induction s with
  | nil => simp [splitNl, joinNl]
  | cons c cs ih =>
    by_cases hc : c = '\n'
    · subst hc
      rw [splitNl_cons_nl]
      cases hs : splitNl cs with
      | nil => exact absurd hs (splitNl_ne_nil cs)
      | cons t ts =>
        rw [hs] at ih
        rw [joinNl_nil_cons, ih]
    · cases hs : splitNl cs with
      | nil => exact absurd hs (splitNl_ne_nil cs)
      | cons t ts =>
        rw [splitNl_cons_ne _ hc, hs]
        simp only [List.headI, List.tail_cons]
        rw [joinNl_cons_cons, ← hs, ih]

theorem splitNl_nl_free (s : LC) : ∀ l ∈ splitNl s, '\n' ∉ l := by
  induction s with
  | nil => simp [splitNl]
  | cons c cs ih =>
    by_cases hc : c = '\n'
    · subst hc
      rw [splitNl_cons_nl]
      intro l hl
      rcases List.mem_cons.mp hl with rfl | hl
      · simp
      · exact ih l hl
    · cases hs : splitNl cs with
      | nil => exact absurd hs (splitNl_ne_nil cs)
      | cons t ts =>
        rw [splitNl_cons_ne _ hc, hs]
        simp only [List.headI, List.tail_cons]
        intro l hl
        rcases List.mem_cons.mp hl with rfl | hl
        · intro hmem
          rcases List.mem_cons.mp hmem with h1 | h1
          · exact hc h1.symm
          · exact ih t (by rw [hs]; exact List.mem_cons_self t ts) h1
        · exact ih l (by rw [hs]; exact List.mem_cons_of_mem t hl)

theorem splitNl_of_nl_free {l : LC} (h : '\n' ∉ l) : splitNl l = [l] := by
  induction l with
  | nil => rfl
  | cons c cs ih =>
    have hc : c ≠ '\n' := fun hcc => h (hcc ▸ List.mem_cons_self c cs)
    rw [splitNl_cons_ne _ hc, ih (fun hm => h (List.mem_cons_of_mem c hm))]
    simp [List.headI]

theorem splitNl_append_line {l : LC} (rest : LC) (h : '\n' ∉ l) :
    splitNl (l ++ '\n' :: rest) = l :: splitNl rest := by
  induction l with
  | nil => exact splitNl_cons_nl rest
  | cons c cs ih =>
    have hc : c ≠ '\n' := fun hcc => h (hcc ▸ List.mem_cons_self c cs)
    rw [List.cons_append, splitNl_cons_ne _ hc, ih (fun hm => h (List.mem_cons_of_mem c hm))]
    simp [List.headI]

theorem splitNl_joinNl {ls : List LC} (hnl : ∀ l ∈ ls, '\n' ∉ l) (hne : ls ≠ []) :
    splitNl (joinNl ls) = ls := by
  induction ls with
  | nil => exact absurd rfl hne
  | cons l ls' ih =>
    cases ls' with
    | nil =>
      show splitNl (joinNl [l]) = [l]
      exact splitNl_of_nl_free (hnl l (List.mem_cons_self _ _))
    | cons l2 ls'' =>
      rw [joinNl_cons _ _ (by simp), splitNl_append_line _ (hnl l (List.mem_cons_self _ _))]
      rw [ih (fun x hx => hnl x (List.mem_cons_of_mem _ hx)) (by simp)]

theorem splitNl_append_nl (t : LC) : splitNl (t ++ [ '\n' ]) = splitNl t ++ [[]] := by
  induction t with
  | nil => rfl
  | cons c t' ih =>
    by_cases hc : c = '\n'
    · subst hc
      rw [List.cons_append, splitNl_cons_nl, splitNl_cons_nl, ih, List.cons_append]
    · rw [List.cons_append, splitNl_cons_ne _ hc, splitNl_cons_ne _ hc, ih]
      cases hs : splitNl t' with
      | nil => exact absurd hs (splitNl_ne_nil t')
      | cons t0 ts => simp [List.headI]

theorem splitNl_snoc {c : Char} (hc : c ≠ '\n') (t : LC) :
    ∃ init last, splitNl t = init ++ [last] ∧ splitNl (t ++ [c]) = init ++ [last ++ [c]] := by
  induction t with
  | nil => exact ⟨[], [], rfl, by rw [List.nil_append, splitNl_cons_ne _ hc]; rfl⟩
  | cons a t' ih =>
    obtain ⟨init, last, h1, h2⟩ := ih
    by_cases ha : a = '\n'
    · subst ha
      refine ⟨[] :: init, last, ?_, ?_⟩
      · rw [splitNl_cons_nl, h1]; rfl
      · rw [List.cons_append, splitNl_cons_nl, h2]; rfl
    · cases init with
      | nil =>
        refine ⟨[], a :: last, ?_, ?_⟩
        · rw [splitNl_cons_ne _ ha, h1]; simp [List.headI]
        · rw [List.cons_append, splitNl_cons_ne _ ha, h2]; simp [List.headI]
      | cons i0 is =>
        refine ⟨(a :: i0) :: is, last, ?_, ?_⟩
        · rw [splitNl_cons_ne _ ha, h1]; simp [List.headI]
        · rw [List.cons_append, splitNl_cons_ne _ ha, h2]; simp [List.headI]

theorem procLine_nil (d : List (LC × LC)) : procLine d [] = d := rfl

theorem ws_ne_colon {c : Char} (h : isWS c = true) : c ≠ ':' := by
  intro hcc
  rw [hcc] at h
  exact absurd h (by decide)

theorem colon_split_append {l r : LC} (h : ':' ∈ l) :
    (l ++ r).takeWhile (fun c => c ≠ ':') = l.takeWhile (fun c => c ≠ ':') ∧
      (l ++ r).dropWhile (fun c => c ≠ ':') = l.dropWhile (fun c => c ≠ ':') ++ r := by
  induction l with
  | nil => simp at h
  | cons a l' ih =>
    by_cases ha : a = ':'
    · subst ha
      constructor <;> simp [List.takeWhile_cons, List.dropWhile_cons]
    · have hmem : ':' ∈ l' := by
        rcases List.mem_cons.mp h with h1 | h1
        · exact absurd h1.symm ha
        · exact h1
      obtain ⟨ih1, ih2⟩ := ih hmem
      simp only [decide_not] at ih1 ih2
      constructor <;> simp [List.takeWhile_cons, List.dropWhile_cons, ha, ih1, ih2]

theorem procLine_cons_ws {c : Char} (d : List (LC × LC)) (l : LC) (h : isWS c = true) :
    procLine d (c :: l) = procLine d l := by
  have hc := ws_ne_colon h
  have hc' : (':' = c) = False := by
    simp only [eq_iff_iff, iff_false]
    exact fun hcc => hc hcc.symm
  unfold procLine splitColon
  have hcontains : (c :: l).contains ':' = l.contains ':' := by
    simp [List.contains_cons, hc']
  rw [hcontains]
  by_cases hl : l.contains ':' = true
  · rw [if_pos hl, if_pos hl]
    have ht : (c :: l).takeWhile (fun x => decide (x ≠ ':')) =
        c :: l.takeWhile (fun x => decide (x ≠ ':')) := by
      simp [List.takeWhile_cons, hc]
    have hd : (c :: l).dropWhile (fun x => decide (x ≠ ':')) =
        l.dropWhile (fun x => decide (x ≠ ':')) := by
      simp [List.dropWhile_cons, hc]
    rw [ht, hd]
    dsimp only
    rw [pyStrip_cons_ws _ h]
  · rw [if_neg hl, if_neg hl]

theorem procLine_append_ws {c : Char} (d : List (LC × LC)) (l : LC) (h : isWS c = true) :
    procLine d (l ++ [c]) = procLine d l := by
  have hc := ws_ne_colon h
  have hc' : (':' = c) = False := by
    simp only [eq_iff_iff, iff_false]
    exact fun hcc => hc hcc.symm
  unfold procLine splitColon
  have hcontains : (l ++ [c]).contains ':' = l.contains ':' := by
    induction l with
    | nil => simp [List.contains_cons, hc']
    | cons a l' ih => simp [List.contains_cons, hc', ih]
  rw [hcontains]
  by_cases hl : l.contains ':' = true
  · rw [if_pos hl, if_pos hl]
    have hmem : ':' ∈ l := by
      rcases List.contains_iff_exists_mem_beq.mp hl with ⟨a, hmem, hbeq⟩
      have ha : ':' = a := by simpa using hbeq
      rwa [← ha] at hmem
    obtain ⟨h1, h2⟩ := colon_split_append (r := [c]) hmem
    rw [h1, h2]
    have hne : l.dropWhile (fun x => decide (x ≠ ':')) ≠ [] := by
      intro hnil
      have := List.dropWhile_eq_nil_iff.mp hnil ':' hmem
      simp at this
    cases hd : l.dropWhile (fun x => decide (x ≠ ':')) with
    | nil => exact absurd hd hne
    | cons x xs =>
      simp only [List.cons_append, List.drop_succ_cons, List.drop_zero]
      rw [pyStrip_append_ws _ h]
  · rw [if_neg hl, if_neg hl]

theorem procLines_head_cons_ws {c : Char} (hc : isWS c = true) (t : LC) (ts : List LC) :
    procLines ((c :: t) :: ts) = procLines (t :: ts) := by
  unfold procLines
  simp only [List.foldl_cons]
  rw [procLine_cons_ws _ _ hc]

theorem splitNl_procLines_cons_ws {c : Char} (hc : isWS c = true) (t : LC) :
    procLines (splitNl (c :: t)) = procLines (splitNl t) := by
  by_cases hnl : c = '\n'
  · subst hnl
    rw [splitNl_cons_nl]
    unfold procLines
    simp only [List.foldl_cons, procLine_nil]
  · rw [splitNl_cons_ne _ hnl]
    cases hs : splitNl t with
    | nil => exact absurd hs (splitNl_ne_nil t)
    | cons x xs =>
      simp only [List.headI, List.tail_cons]
      rw [procLines_head_cons_ws hc]

theorem splitNl_procLines_lstrip (t : LC) :
    procLines (splitNl (lstrip t)) = procLines (splitNl t) := by
  induction t with
  | nil => rfl
  | cons c cs ih =>
    by_cases hc : isWS c
    · rw [show lstrip (c :: cs) = lstrip cs from by simp [lstrip, List.dropWhile_cons, hc]]
      rw [ih, splitNl_procLines_cons_ws hc]
    · rw [show lstrip (c :: cs) = c :: cs from by simp [lstrip, List.dropWhile_cons, hc]]

theorem procLines_append_nil_line (X : List LC) :
    procLines (X ++ [[]]) = procLines X := by
  unfold procLines
  rw [List.foldl_append]
  simp [procLine_nil]

theorem splitNl_procLines_snoc_ws {c : Char} (hc : isWS c = true) (t : LC) :
    procLines (splitNl (t ++ [c])) = procLines (splitNl t) := by
  by_cases hnl : c = '\n'
  · subst hnl
    rw [splitNl_append_nl, procLines_append_nil_line]
  · obtain ⟨init, last, h1, h2⟩ := splitNl_snoc hnl t
    rw [h1, h2]
    unfold procLines
    rw [List.foldl_append, List.foldl_append]
    simp only [List.foldl_cons, List.foldl_nil]
    rw [procLine_append_ws _ _ hc]

theorem splitNl_procLines_append_ws (w : LC) (hw : ∀ c ∈ w, isWS c = true) :
    ∀ a : LC, procLines (splitNl (a ++ w)) = procLines (splitNl a) := by
  induction w with
  | nil => intro a; simp
  | cons c w' ih =>
    intro a
    have hstep : a ++ c :: w' = (a ++ [c]) ++ w' := by simp
    rw [hstep, ih (fun x hx => hw x (List.mem_cons_of_mem c hx)),
      splitNl_procLines_snoc_ws (hw c (List.mem_cons_self c w')) a]

theorem splitNl_procLines_rstrip (t : LC) :
    procLines (splitNl (rstrip t)) = procLines (splitNl t) := by
  obtain ⟨w, hw, hdecomp⟩ := rstrip_decomp t
  conv_rhs => rw [hdecomp]
  rw [splitNl_procLines_append_ws w hw (rstrip t)]

theorem splitNl_procLines_pyStrip (t : LC) :
    procLines (splitNl (pyStrip t)) = procLines (splitNl t) := by
  unfold pyStrip
  rw [splitNl_procLines_rstrip, splitNl_procLines_lstrip]

theorem yaml_procLines (pre : List LC) (hnl : ∀ l ∈ pre, '\n' ∉ l) :
    procLines (splitNl (pyStrip (joinNl pre ++ [ '\n' ]))) = procLines pre := by
  cases pre with
  | nil => rfl
  | cons p ps =>
    rw [splitNl_procLines_pyStrip, splitNl_append_nl, procLines_append_nil_line,
      splitNl_joinNl hnl (by simp)]

theorem listPre_refl (p : LC) : listPre p p = true := by
  rw [listPre_iff_take, List.take_length]

theorem listPre_nlFence_shape {t : LC} (h : listPre nlFence t = true) :
    ∃ rest, t = '\n' :: '-' :: '-' :: '-' :: '\n' :: rest := by
  rw [listPre_iff_take] at h
  refine ⟨t.drop 5, ?_⟩
  have h5 : t.take 5 = nlFence := by
    rw [show (5 : Nat) = nlFence.length from by decide]
    exact h
  conv_lhs => rw [← List.take_append_drop 5 t]
  rw [h5]
  rfl

theorem mem_of_head? {α : Type _} {l : List α} {a : α} (h : l.head? = some a) : a ∈ l := by
  cases l with
  | nil => simp at h
  | cons x xs =>
    simp only [List.head?_cons, Option.some.injEq] at h
    exact h ▸ List.mem_cons_self x xs

theorem no_fence_occ_line {l : LC} (hnl : '\n' ∉ l) :
    ∀ i, listPre nlFence (('\n' :: l).drop i) = false := by
  intro i
  by_contra hcon
  rw [Bool.not_eq_false] at hcon
  obtain ⟨rest, hr⟩ := listPre_nlFence_shape hcon
  cases i with
  | zero =>
    simp only [List.drop_zero, List.cons.injEq] at hr
    apply hnl
    rw [hr.2]
    simp
  | succ j =>
    simp only [List.drop_succ_cons] at hr
    apply hnl
    have hmem : '\n' ∈ l.drop j := by
      rw [hr]
      exact List.mem_cons_self _ _
    exact List.drop_subset _ _ hmem

theorem no_fence_occ_block {p0 : LC} (B : LC) (hnl : '\n' ∉ p0) (hne : p0 ≠ fence)
    (hB : B = [] ∨ B.head? = some '\n') :
    ∀ i, i < p0.length + 1 → listPre nlFence (('\n' :: p0 ++ B).drop i) = false := by
  intro i hi
  by_contra hcon
  rw [Bool.not_eq_false] at hcon
  obtain ⟨rest, hr⟩ := listPre_nlFence_shape hcon
  cases i with
  | zero =>
    simp only [List.drop_zero, List.cons_append, List.cons.injEq] at hr
    have hr2 := hr.2
    match p0, hr2 with
    | [], hr2 =>
      rcases hB with hB | hB
      · rw [hB] at hr2; cases hr2
      · rw [List.nil_append] at hr2
        rw [hr2] at hB
        simp at hB
    | [a], hr2 =>
      simp only [List.cons_append, List.nil_append, List.cons.injEq] at hr2
      rcases hB with hB | hB
      · rw [hB] at hr2; simp at hr2
      · rw [hr2.2] at hB
        simp at hB
    | [a, b], hr2 =>
      simp only [List.cons_append, List.nil_append, List.cons.injEq] at hr2
      rcases hB with hB | hB
      · rw [hB] at hr2; simp at hr2
      · rw [hr2.2.2] at hB
        simp at hB
    | [a, b, c], hr2 =>
      simp only [List.cons_append, List.nil_append, List.cons.injEq] at hr2
      exact hne (by rw [hr2.1, hr2.2.1, hr2.2.2.1]; rfl)
    | a :: b :: c :: d :: tl, hr2 =>
      simp only [List.cons_append, List.cons.injEq] at hr2
      exact hnl (by rw [hr2.2.2.2.1]; simp)
  | succ j =>
    simp only [List.cons_append, List.drop_succ_cons] at hr
    have hj : j < p0.length := by omega
    have hsplit : (p0 ++ B).drop j = p0.drop j ++ B := by
      rw [List.drop_append_of_le_length (by omega)]
    rw [hsplit] at hr
    have hdne : p0.drop j ≠ [] := by
      intro hdnil
      rw [List.drop_eq_nil_iff_le] at hdnil
      omega
    cases hdd : p0.drop j with
    | nil => exact absurd hdd hdne
    | cons x xs =>
      rw [hdd, List.cons_append, List.cons.injEq] at hr
      apply hnl
      have : '\n' ∈ p0.drop j := by rw [hdd, hr.1]; exact List.mem_cons_self _ _
      exact List.drop_subset _ _ this

theorem joinNl_append (a b : List LC) (ha : a ≠ []) (hb : b ≠ []) :
    joinNl (a ++ b) = joinNl a ++ '\n' :: joinNl b := by
  induction a with
  | nil => exact absurd rfl ha
  | cons x a' ih =>
    cases a' with
    | nil =>
      cases b with
      | nil => exact absurd rfl hb
      | cons y b' => rfl
    | cons x2 a'' =>
      have h1 : joinNl (x :: x2 :: a'') = x ++ '\n' :: joinNl (x2 :: a'') :=
        joinNl_cons _ _ (by simp)
      have h2 : joinNl (x :: (x2 :: a'' ++ b)) = x ++ '\n' :: joinNl (x2 :: a'' ++ b) :=
        joinNl_cons _ _ (by simp)
      rw [List.cons_append, h2, ih (by simp), h1]
      simp [List.append_assoc]

theorem findSub_eq_none_of {pat s : LC} (h : ∀ i, listPre pat (s.drop i) = false) :
    findSub pat s = none := by
  cases hfs : findSub pat s with
  | none => rfl
  | some p =>
    have hocc := (findSub_some hfs).1
    rw [h p] at hocc
    cases hocc

theorem findSub_nlFence_join_some (suf : List LC) (hsuf : suf ≠ []) (pre : List LC) :
    (∀ l ∈ pre, '\n' ∉ l) → fence ∉ pre →
    findSub nlFence ('\n' :: joinNl (pre ++ fence :: suf)) =
      some (if pre = [] then 0 else (joinNl pre).length + 1) := by
  induction pre with
  | nil =>
    intro _ _
    rw [List.nil_append, if_pos rfl]
    have hshape : ('\n' :: joinNl (fence :: suf)) = nlFence ++ joinNl suf := by
      rw [joinNl_cons _ _ hsuf]
      rfl
    rw [hshape]
    refine findSub_eq_of ?_ (fun i hi => absurd hi (Nat.not_lt_zero i))
    simpa using listPre_trans_append (joinNl suf) (listPre_refl nlFence)
  | cons p0 pre' ih =>
    intro hnl hf
    have hp0nl : '\n' ∉ p0 := hnl p0 (List.mem_cons_self _ _)
    have hp0ne : p0 ≠ fence := fun hcc => hf (hcc ▸ List.mem_cons_self _ _)
    have hshape : '\n' :: joinNl ((p0 :: pre') ++ fence :: suf) =
        ('\n' :: p0) ++ ('\n' :: joinNl (pre' ++ fence :: suf)) := by
      rw [List.cons_append, joinNl_cons _ _ (by simp)]
      rfl
    rw [hshape, findSub_shift _ _ (fun i hi => by
      refine no_fence_occ_block ('\n' :: joinNl (pre' ++ fence :: suf)) hp0nl hp0ne
        (Or.inr rfl) i ?_
      simpa using hi)]
    rw [ih (fun l hl => hnl l (List.mem_cons_of_mem _ hl))
      (fun hm => hf (List.mem_cons_of_mem _ hm))]
    simp only [Option.map_some', Option.some.injEq, List.length_cons]
    cases pre' with
    | nil => simp [joinNl]
    | cons q qs =>
      have hj : joinNl (p0 :: q :: qs) = p0 ++ '\n' :: joinNl (q :: qs) :=
        joinNl_cons _ _ (by simp)
      rw [if_neg (by simp), if_neg (by simp), hj]
      simp only [List.length_append, List.length_cons]
      omega

theorem findSub_nlFence_join_none (ls : List LC) (hnl : ∀ l ∈ ls, '\n' ∉ l)
    (hf : fence ∉ ls.dropLast) :
    findSub nlFence ('\n' :: joinNl ls) = none := by
  induction ls with
  | nil => decide
  | cons l ls' ih =>
    cases ls' with
    | nil => exact findSub_eq_none_of (no_fence_occ_line (hnl l (List.mem_cons_self _ _)))
    | cons l2 ls'' =>
      have hlne : l ≠ fence := by
        intro hcc
        apply hf
        rw [List.dropLast_cons₂, ← hcc]
        exact List.mem_cons_self _ _
      have hshape : '\n' :: joinNl (l :: l2 :: ls'') =
          ('\n' :: l) ++ ('\n' :: joinNl (l2 :: ls'')) := rfl
      rw [hshape, findSub_shift _ _ (fun i hi => by
        refine no_fence_occ_block ('\n' :: joinNl (l2 :: ls''))
          (hnl l (List.mem_cons_self _ _)) hlne (Or.inr rfl) i ?_
        simpa using hi)]
      rw [ih (fun x hx => hnl x (List.mem_cons_of_mem _ hx)) (by
        intro hm
        apply hf
        rw [List.dropLast_cons₂]
        exact List.mem_cons_of_mem _ hm)]
      rfl

theorem takeWhile_eq_of_append {α : Type _} (p : α → Bool) (a : List α) (b : α) (c : List α)
    (ha : ∀ x ∈ a, p x = true) (hb : p b = false) :
    (a ++ b :: c).takeWhile p = a := by
  induction a with
  | nil => simp [List.takeWhile_cons, hb]
  | cons x a' ih =>
    rw [List.cons_append, List.takeWhile_cons, if_pos (ha x (List.mem_cons_self _ _)),
      ih (fun y hy => ha y (List.mem_cons_of_mem _ hy))]

/-- C5 (amended): for every text whose first line is exactly the delimiter
`---` and which contains a later, non-final line consisting solely of `---`
(equivalently: a closing delimiter line terminated by a newline),
`parse_frontmatter` returns exactly the mapping obtained from the lines
strictly between the two delimiter lines by the colon/strip/quote rule with
later keys overwriting earlier ones (`frontmatterSpec`).  The original claim,
which does not require the closing delimiter line to be newline-terminated,
is refuted by `parse_frontmatter_needs_newline_counterexample`. -/
theorem parse_frontmatter_agrees_spec (content : LC)
    (h0 : (splitNl content).head? = some fence)
    (h1 : fence ∈ ((splitNl content).drop 1).dropLast) :
    parse_frontmatter content = frontmatterSpec content := by
  cases hs : splitNl content with
  | nil => exact absurd hs (splitNl_ne_nil content)
  | cons t ts =>
    rw [hs] at h0 h1
    simp only [List.head?_cons, Option.some.injEq] at h0
    subst h0
    simp only [List.drop_succ_cons, List.drop_zero] at h1
    have hmem : fence ∈ ts := (List.dropLast_sublist ts).subset h1
    have hnlAll := splitNl_nl_free content
    rw [hs] at hnlAll
    have hnlTs : ∀ l ∈ ts, '\n' ∉ l := fun l hl => hnlAll l (List.mem_cons_of_mem _ hl)
    have hdw : ts.dropWhile (fun l => decide (l ≠ fence)) ≠ [] := by
      intro hnil
      have := List.dropWhile_eq_nil_iff.mp hnil fence hmem
      simp at this
    cases hdd : ts.dropWhile (fun l => decide (l ≠ fence)) with
    | nil => exact absurd hdd hdw
    | cons f0 suf =>
      have hf0 : f0 = fence := by
        have hh := head?_dropWhile (l := ts) (p := fun l => decide (l ≠ fence))
          (by rw [hdd]; rfl)
        simpa using hh
      subst hf0
      have hts : ts = ts.takeWhile (fun l => decide (l ≠ fence)) ++ fence :: suf := by
        rw [← hdd]
        exact (List.takeWhile_append_dropWhile _ _).symm
      set pre := ts.takeWhile (fun l => decide (l ≠ fence)) with hpre_def
      have hfpre : fence ∉ pre := by
        intro hm
        rw [hpre_def] at hm
        have := List.mem_takeWhile_imp hm
        simp at this
      have hsuf : suf ≠ [] := by
        intro hnil
        rw [hnil] at hts
        rw [hts, List.dropLast_concat] at h1
        exact hfpre h1
      have hcontent : content = fence ++ '\n' :: joinNl ts := by
        conv_lhs => rw [← joinNl_splitNl content]
        rw [hs, joinNl_cons _ _ (by rw [hts]; simp)]
      have hstart : listPre fence content = true := by
        rw [hcontent]
        exact listPre_trans_append _ (listPre_refl fence)
      have hdrop3 : content.drop 3 = '\n' :: joinNl ts := by
        rw [hcontent, show (3 : Nat) = fence.length + 0 from by decide, drop_append_len]
        rfl
      have hdrop4 : content.drop 4 = joinNl ts := by
        rw [hcontent,
          show fence ++ '\n' :: joinNl ts = (fence ++ [ '\n' ]) ++ joinNl ts from by simp,
          show (4 : Nat) = (fence ++ [ '\n' ]).length + 0 from by decide, drop_append_len]
        rfl
      have hnlPre : ∀ l ∈ pre, '\n' ∉ l := fun l hl =>
        hnlTs l (by rw [hts]; exact List.mem_append_left _ hl)
      have hfind : findSub nlFence (content.drop 3) =
          some (if pre = [] then 0 else (joinNl pre).length + 1) := by
        rw [hdrop3]
        conv_lhs => rw [hts]
        exact findSub_nlFence_join_some suf hsuf pre hnlPre hfpre
      unfold parse_frontmatter frontmatterSpec frontmatterSpecLines
      rw [if_pos hstart, hfind]
      rw [hs]
      simp only [List.drop_succ_cons, List.drop_zero]
      conv_rhs => rw [hts]
      have htw : (pre ++ fence :: suf).takeWhile (fun l => decide (l ≠ fence)) = pre := by
        refine takeWhile_eq_of_append _ pre fence suf ?_ (by simp)
        intro x hx
        rw [hpre_def] at hx
        exact List.mem_takeWhile_imp (p := fun l => decide (l ≠ fence)) hx
      rw [htw]
      by_cases hpe : pre = []
      · rw [if_pos hpe, hpe]
        rw [hdrop4]
        rfl
      · rw [if_neg hpe, hdrop4]
        have hj : joinNl ts = joinNl pre ++ '\n' :: joinNl (fence :: suf) := by
          conv_lhs => rw [hts]
          exact joinNl_append _ _ hpe (by simp)
        rw [hj]
        have htake : (joinNl pre ++ '\n' :: joinNl (fence :: suf)).take
            ((joinNl pre).length + 1) = joinNl pre ++ [ '\n' ] := by
          rw [take_append_len]
          rfl
        rw [htake, yaml_procLines pre hnlPre]

/-- C5 counterexample: on `"---\na: b\n---"` the text begins with the
delimiter and its last line consists solely of `---`, and the mapping of the
lines between the delimiters is `{a: b}`, yet `parse_frontmatter` returns the
empty mapping, because the regex `r'\n---\n'` requires a newline after the
closing delimiter line. -/
theorem parse_frontmatter_needs_newline_counterexample :
    listPre fence (toL "---\na: b\n---") = true ∧
    (splitNl (toL "---\na: b\n---")).head? = some fence ∧
    fence ∈ (splitNl (toL "---\na: b\n---")).drop 1 ∧
    frontmatterSpec (toL "---\na: b\n---") = [(toL "a", toL "b")] ∧
    parse_frontmatter (toL "---\na: b\n---") = [] := by
  exact ⟨by decide, by decide, by decide, by decide, by decide⟩

/-- Witness for C5 at a concrete well-formed input. -/
theorem parse_frontmatter_agrees_spec_witness :
    parse_frontmatter (toL "---\npriority: High\n---\nbody") =
      frontmatterSpec (toL "---\npriority: High\n---\nbody") :=
  parse_frontmatter_agrees_spec _ (by decide) (by decide)

/-- C6: `parse_frontmatter` is a total function of the input text (it is
defined by structural operations that never raise), and it returns the empty
mapping both when the text does not begin with the three-character delimiter
`---` and when no closing `"\n---\n"` occurs after the opening delimiter. -/
theorem parse_frontmatter_total_empty (content : LC) :
    (listPre fence content = false → parse_frontmatter content = []) ∧
    (findSub nlFence (content.drop 3) = none → parse_frontmatter content = []) := by
  constructor
  · intro h
    unfold parse_frontmatter
    rw [if_neg (by simp [h])]
  · intro h
    unfold parse_frontmatter
    by_cases hs : listPre fence content = true
    · rw [if_pos hs, h]
    · rw [if_neg hs]

/-- Witness for C6 at concrete inputs: a text not starting with the delimiter
and a text with an unterminated frontmatter block. -/
theorem parse_frontmatter_total_empty_witness :
    parse_frontmatter (toL "hello") = [] ∧ parse_frontmatter (toL "---\nx: y") = [] := by
  constructor
  · exact (parse_frontmatter_total_empty (toL "hello")).1 (by decide)
  · exact (parse_frontmatter_total_empty (toL "---\nx: y")).2 (by decide)

theorem drop_append_of_len (a b : LC) (n m : Nat) (h : a.length = n) :
    (a ++ b).drop (n + m) = b.drop m := by
  rw [← h, drop_append_len]

theorem isLA_append_long {a : LC} (b : LC) (h : 5 ≤ a.length) : isLA (a ++ b) = isLA a := by
  match a with
  | a1 :: a2 :: a3 :: a4 :: a5 :: rest => rfl
  | [] => simp at h
  | [a1] => simp at h
  | [a1, a2] => simp at h
  | [a1, a2, a3] => simp at h
  | [a1, a2, a3, a4] => simp at h

theorem hasLA_false_iff {t : LC} : hasLA t = false ↔ ∀ i, isLA (t.drop i) = false := by
  induction t with
  | nil => simp [hasLA, isLA]
  | cons c cs ih =>
    simp only [hasLA, Bool.or_eq_false_iff]
    constructor
    · rintro ⟨hl1, hl2⟩ i
      cases i with
      | zero => simpa using hl1
      | succ j => simpa using (ih.mp hl2) j
    · intro h
      exact ⟨by simpa using h 0, ih.mpr (fun j => by simpa using h (j + 1))⟩

theorem findLA_spec (t : LC) :
    (∀ m, m < findLA t → isLA (t.drop m) = false) ∧
      (findLA t = t.length ∨ isLA (t.drop (findLA t)) = true) := by
  induction t with
  | nil => exact ⟨fun m hm => absurd hm (by simp [findLA]), Or.inl rfl⟩
  | cons c cs ih =>
    simp only [findLA]
    by_cases hla : isLA (c :: cs) = true
    · rw [if_pos hla]
      exact ⟨fun m hm => absurd hm (by omega), Or.inr (by simpa using hla)⟩
    · rw [if_neg hla]
      obtain ⟨ih1, ih2⟩ := ih
      constructor
      · intro m hm
        cases m with
        | zero => simpa using eq_false_of_ne_true hla
        | succ j => simpa using ih1 j (by omega)
      · rcases ih2 with h | h
        · exact Or.inl (by simp [h])
        · exact Or.inr (by simpa using h)

theorem findLA_of_isLA {t : LC} (h : isLA t = true) : findLA t = 0 := by
  cases t with
  | nil => simp [isLA] at h
  | cons c cs => simp [findLA, h]

theorem findLA_eq_length (t : LC) (h : ∀ i, isLA (t.drop i) = false) : findLA t = t.length := by
  rcases (findLA_spec t).2 with h1 | h1
  · exact h1
  · rw [h (findLA t)] at h1
    cases h1

theorem findLA_append (a b : LC)
    (h : ∀ i, i < a.length → isLA ((a ++ b).drop i) = false) :
    findLA (a ++ b) = a.length + findLA b := by
  induction a with
  | nil => simp
  | cons c as ih =>
    simp only [List.cons_append, findLA, List.append_eq]
    rw [if_neg]
    · rw [ih (fun i hi => by simpa using h (i + 1) (by simp only [List.length_cons]; omega))]
      simp only [List.length_cons]
      omega
    · have h0 := h 0 (by simp)
      simpa using h0

theorem isLA_shape {v : LC} (h : isLA v = true) :
    ∃ e t, v = '\n' :: '#' :: '#' :: ' ' :: e :: t ∧ e ≠ '#' := by
  match v with
  | [] => simp [isLA] at h
  | [a1] => simp [isLA] at h
  | [a1, a2] => simp [isLA] at h
  | [a1, a2, a3] => simp [isLA] at h
  | [a1, a2, a3, a4] => simp [isLA] at h
  | a :: b :: c :: d :: e :: t =>
    simp only [isLA, Bool.and_eq_true, decide_eq_true_eq] at h
    obtain ⟨⟨⟨⟨h1, h2⟩, h3⟩, h4⟩, h5⟩ := h
    exact ⟨e, t, by rw [h1, h2, h3, h4], h5⟩

theorem isLA_pos1_nl (a : Char) (X : LC) : isLA (a :: '\n' :: X) = false := by
  match X with
  | [] => rfl
  | [x] => rfl
  | [x, y] => rfl
  | x :: y :: z :: r => simp [isLA]

theorem isLA_pos2_nl (a b : Char) (X : LC) : isLA (a :: b :: '\n' :: X) = false := by
  match X with
  | [] => rfl
  | [x] => rfl
  | x :: y :: r => simp [isLA]

theorem isLA_pos3_nl (a b c : Char) (X : LC) : isLA (a :: b :: c :: '\n' :: X) = false := by
  match X with
  | [] => rfl
  | x :: r => simp [isLA]

theorem isLA_pos3_ne_space (a b c d : Char) (X : LC) (hd : d ≠ ' ') :
    isLA (a :: b :: c :: d :: X) = false := by
  match X with
  | [] => rfl
  | e :: r => simp [isLA, hd]

theorem isLA_nl_head (v : LC) (hv : v = [] ∨ isLA v = true) : isLA ('\n' :: v) = false := by
  rcases hv with rfl | hv
  · rfl
  · obtain ⟨e, t, rfl, _⟩ := isLA_shape hv
    exact isLA_pos1_nl '\n' _

theorem repl_noLA_inside (F v : LC) (hF : hasLA F = false)
    (hlast : ∀ c, F.getLast? = some c → isWS c = false)
    (hv : v = [] ∨ isLA v = true) :
    ∀ i, i < F.length + 1 → isLA ((F ++ '\n' :: v).drop i) = false := by
  intro i hi
  have hsplit : (F ++ '\n' :: v).drop i = F.drop i ++ '\n' :: v :=
    List.drop_append_of_le_length (by omega)
  rw [hsplit]
  match hFd : F.drop i with
  | [] => exact isLA_nl_head v hv
  | [a] => exact isLA_pos1_nl a v
  | [a, b] => exact isLA_pos2_nl a b v
  | [a, b, c] => exact isLA_pos3_nl a b c v
  | [a, b, c, d] =>
    have hd : F.getLast? = some d := by
      conv_lhs => rw [← List.take_append_drop i F, hFd]
      rw [List.getLast?_append]
      rfl
    have hdw := hlast d hd
    have hdne : d ≠ ' ' := by
      intro hds
      rw [hds] at hdw
      exact absurd hdw (by decide)
    exact isLA_pos3_ne_space a b c d _ hdne
  | a :: b :: c :: d :: e :: rest =>
    rw [show (a :: b :: c :: d :: e :: rest) ++ '\n' :: v =
      (a :: b :: c :: d :: e :: rest) ++ ('\n' :: v) from rfl]
    rw [isLA_append_long _ (by simp)]
    rw [← hFd]
    exact hasLA_false_iff.mp hF i

theorem listPre_cons_iff {x : Char} {ps l : LC} :
    listPre (x :: ps) l = true ↔ ∃ ys, l = x :: ys ∧ listPre ps ys = true := by
  cases l with
  | nil => simp [listPre]
  | cons y ys =>
    simp only [listPre, Bool.and_eq_true, decide_eq_true_eq]
    constructor
    · rintro ⟨hl1, hl2⟩
      exact ⟨ys, by rw [hl1], hl2⟩
    · rintro ⟨ys', hys, hl2⟩
      injection hys with hy hys'
      exact ⟨hy.symm, hys' ▸ hl2⟩

theorem findSub_HDG_concat (u repl v : LC) (hpre : listPre HDG repl = true)
    (hu : ∀ i, listPre HDG (u.drop i) = false) :
    findSub HDG (u ++ repl ++ v) = some u.length := by
  have h29 : HDG.length = 29 := by decide
  refine findSub_eq_of ?_ ?_
  · rw [List.append_assoc, List.drop_left]
    exact listPre_trans_append _ hpre
  · intro i hi
    rw [List.append_assoc, List.drop_append_of_le_length (by omega)]
    by_cases hlong : HDG.length ≤ (u.drop i).length
    · rw [listPre_append_long _ hlong]
      exact hu i
    · by_contra hcon
      rw [Bool.not_eq_false] at hcon
      obtain ⟨hc1, hc2⟩ := listPre_split hcon (by omega)
      have hq : listPre HDG (repl ++ v) = true := listPre_trans_append _ hpre
      have hk_pos : 0 < (u.drop i).length := by
        simp only [List.length_drop]
        simp only [List.length_append] at hi
        omega
      have h3 : listPre (HDG.drop (u.drop i).length) HDG = true :=
        listPre_mutual hc2 hq (by simp [List.length_drop])
      have hno : listPre (HDG.drop (u.drop i).length) HDG = false := by
        have hbound : (u.drop i).length < 29 := by omega
        exact hdg_no_overlap (u.drop i).length hbound hk_pos
      rw [h3] at hno
      cases hno
where
  hdg_no_overlap : ∀ k, k < 29 → 0 < k → listPre (HDG.drop k) HDG = false := by decide

theorem findLA_region (F v : LC) (hF : hasLA F = false)
    (hlast : ∀ c, F.getLast? = some c → isWS c = false)
    (hv : v = [] ∨ isLA v = true) (hFlen : HDG.length ≤ F.length) :
    findLA (((F ++ [ '\n' ]) ++ v).drop HDG.length) = (F.length + 1) - HDG.length := by
  have h29 : HDG.length = 29 := by decide
  have hshape : ((F ++ [ '\n' ]) ++ v).drop HDG.length = (F.drop HDG.length ++ [ '\n' ]) ++ v := by
    rw [List.append_assoc, List.drop_append_of_le_length hFlen]
    simp
  rw [hshape]
  have hnoin : ∀ i, i < (F.drop HDG.length ++ [ '\n' ]).length →
      isLA (((F.drop HDG.length ++ [ '\n' ]) ++ v).drop i) = false := by
    intro i hi
    have hlen : (F.drop HDG.length ++ [ '\n' ]).length = F.length - HDG.length + 1 := by
      simp
    have h2 : (F.take HDG.length).length = HDG.length := by
      rw [List.length_take, Nat.min_eq_left hFlen]
    have hstr : ((F.drop HDG.length ++ [ '\n' ]) ++ v).drop i =
        (F ++ '\n' :: v).drop (HDG.length + i) := by
      rw [show (F.drop HDG.length ++ [ '\n' ]) ++ v = F.drop HDG.length ++ '\n' :: v from by simp]
      conv_rhs =>
        rw [show F ++ '\n' :: v = F.take HDG.length ++ (F.drop HDG.length ++ '\n' :: v) from by
          rw [← List.append_assoc, List.take_append_drop]]
      rw [drop_append_of_len _ _ _ _ h2]
    rw [hstr]
    exact repl_noLA_inside F v hF hlast hv (HDG.length + i) (by rw [hlen] at hi; omega)
  rw [findLA_append _ _ hnoin]
  rcases hv with rfl | hv
  · rw [show findLA ([] : LC) = 0 from rfl]
    simp only [List.length_append, List.length_drop, List.length_cons, List.length_nil]
    omega
  · rw [findLA_of_isLA hv]
    simp only [List.length_append, List.length_drop, List.length_cons, List.length_nil]
    omega
theorem subAllFuel_mono (repl : LC) :
    ∀ f1 f2 s, s.length ≤ f1 → s.length ≤ f2 → subAllFuel repl f1 s = subAllFuel repl f2 s := by
  have hnone : findSub HDG ([] : LC) = none := by decide
  intro f1
  induction f1 with
  | zero =>
    intro f2 s h1 h2
    have hnil : s = [] := List.eq_nil_of_length_eq_zero (by omega)
    subst hnil
    cases f2 with
    | zero => rfl
    | succ m => rfl
  | succ k ih =>
    intro f2 s h1 h2
    cases f2 with
    | zero =>
      have hnil : s = [] := List.eq_nil_of_length_eq_zero (by omega)
      subst hnil
      rfl
    | succ m =>
      rw [subAllFuel, subAllFuel]
      cases hfs : findSub HDG s with
      | none => rfl
      | some p =>
        have h29 : HDG.length = 29 := by decide
        have hplen : p + HDG.length ≤ s.length := by
          have hl := listPre_length (findSub_some hfs).1
          simp only [List.length_drop] at hl
          omega
        dsimp only
        congr 1
        apply ih
        · simp only [List.length_drop]
          omega
        · simp only [List.length_drop]
          omega

theorem subAll_nil (repl : LC) : subAll repl [] = [] := rfl

theorem subAll_unfold (repl s : LC) {p : Nat} (hfs : findSub HDG s = some p) :
    subAll repl s = s.take p ++ repl ++
      subAll repl (s.drop (p + HDG.length + findLA (s.drop (p + HDG.length)))) := by
  have h29 : HDG.length = 29 := by decide
  have hplen : p + HDG.length ≤ s.length := by
    have hl := listPre_length (findSub_some hfs).1
    simp only [List.length_drop] at hl
    omega
  unfold subAll
  cases hL : s.length with
  | zero => omega
  | succ L =>
    rw [subAllFuel, hfs]
    dsimp only
    congr 1
    apply subAllFuel_mono
    · simp only [List.length_drop]
      omega
    · simp only [List.length_drop]
      omega

theorem subAll_eq_self_of_none (repl s : LC) (hfs : findSub HDG s = none) :
    subAll repl s = s := by
  unfold subAll
  cases hL : s.length with
  | zero => rfl
  | succ L => rw [subAllFuel, hfs]

theorem subAll_append (F u v : LC)
    (hpreF : listPre HDG F = true) (hF : hasLA F = false)
    (hlast : ∀ c, F.getLast? = some c → isWS c = false)
    (hu : ∀ i, listPre HDG (u.drop i) = false)
    (hv : v = [] ∨ isLA v = true) :
    subAll (F ++ [ '\n' ]) (u ++ (F ++ [ '\n' ]) ++ v) =
      u ++ (F ++ [ '\n' ]) ++ subAll (F ++ [ '\n' ]) v := by
  have hFlen : HDG.length ≤ F.length := listPre_length hpreF
  have hrepl_pre : listPre HDG (F ++ [ '\n' ]) = true := listPre_trans_append _ hpreF
  have hfind := findSub_HDG_concat u (F ++ [ '\n' ]) v hrepl_pre hu
  rw [subAll_unfold _ _ hfind]
  have hdrop1 : (u ++ (F ++ [ '\n' ]) ++ v).drop (u.length + HDG.length) =
      ((F ++ [ '\n' ]) ++ v).drop HDG.length := by
    rw [List.append_assoc, drop_append_len]
  rw [hdrop1, findLA_region F v hF hlast hv hFlen]
  have he : u.length + HDG.length + (F.length + 1 - HDG.length) =
      u.length + ((F ++ [ '\n' ]).length + 0) := by
    simp only [List.length_append, List.length_cons, List.length_nil]
    omega
  rw [he]
  have hdrop2 : (u ++ (F ++ [ '\n' ]) ++ v).drop (u.length + ((F ++ [ '\n' ]).length + 0)) = v := by
    rw [List.append_assoc, drop_append_len, drop_append_len]
    rfl
  have htake : (u ++ (F ++ [ '\n' ]) ++ v).take u.length = u := by
    rw [List.append_assoc, List.take_left]
  rw [hdrop2, htake]

theorem subAll_isLA (F : LC) (hpreF : listPre HDG F = true) {t : LC} (h : isLA t = true) :
    isLA (subAll (F ++ [ '\n' ]) t) = true := by
  have hHDG : HDG = '#' :: '#' :: ' ' :: 'C' :: toL "urrent Issues by Priority" := by decide
  obtain ⟨e, t5, rfl, he⟩ := isLA_shape h
  cases hfs : findSub HDG ('\n' :: '#' :: '#' :: ' ' :: e :: t5) with
  | none =>
    rw [subAll_eq_self_of_none _ _ hfs]
    exact h
  | some p =>
    rw [subAll_unfold _ _ hfs]
    obtain ⟨hocc, hmin⟩ := findSub_some hfs
    rw [hHDG] at hpreF
    rw [listPre_cons_iff] at hpreF
    obtain ⟨F1, hFeq, hpre1⟩ := hpreF
    rw [listPre_cons_iff] at hpre1
    obtain ⟨F2, hF1eq, hpre2⟩ := hpre1
    rw [listPre_cons_iff] at hpre2
    obtain ⟨F3, hF2eq, hpre3⟩ := hpre2
    rw [listPre_cons_iff] at hpre3
    obtain ⟨F4, hF3eq, _⟩ := hpre3
    rcases Nat.lt_or_ge p 5 with hp5 | hp5
    · interval_cases p
      · exfalso
        rw [List.drop_zero, hHDG, listPre_cons_iff] at hocc
        obtain ⟨ys, hys, _⟩ := hocc
        simp at hys
      · rw [show ('\n' :: '#' :: '#' :: ' ' :: e :: t5).drop 1 =
          '#' :: '#' :: ' ' :: e :: t5 from rfl, hHDG, listPre_cons_iff] at hocc
        obtain ⟨y1, hy1, hocc⟩ := hocc
        injection hy1 with _ hy1
        subst hy1
        rw [listPre_cons_iff] at hocc
        obtain ⟨y2, hy2, hocc⟩ := hocc
        injection hy2 with _ hy2
        subst hy2
        rw [listPre_cons_iff] at hocc
        obtain ⟨y3, hy3, hocc⟩ := hocc
        injection hy3 with _ hy3
        subst hy3
        rw [listPre_cons_iff] at hocc
        obtain ⟨y4, hy4, _⟩ := hocc
        injection hy4 with hy4e _
        subst hy4e
        rw [hFeq, hF1eq, hF2eq, hF3eq]
        simp [isLA]
      · exfalso
        rw [show ('\n' :: '#' :: '#' :: ' ' :: e :: t5).drop 2 =
          '#' :: ' ' :: e :: t5 from rfl, hHDG, listPre_cons_iff] at hocc
        obtain ⟨y1, hy1, hocc⟩ := hocc
        injection hy1 with _ hy1
        subst hy1
        rw [listPre_cons_iff] at hocc
        obtain ⟨y2, hy2, _⟩ := hocc
        simp at hy2
      · exfalso
        rw [show ('\n' :: '#' :: '#' :: ' ' :: e :: t5).drop 3 =
          ' ' :: e :: t5 from rfl, hHDG, listPre_cons_iff] at hocc
        obtain ⟨y1, hy1, _⟩ := hocc
        simp at hy1
      · exfalso
        rw [show ('\n' :: '#' :: '#' :: ' ' :: e :: t5).drop 4 =
          e :: t5 from rfl, hHDG, listPre_cons_iff] at hocc
        obtain ⟨y1, hy1, _⟩ := hocc
        injection hy1 with hy1e _
        exact he hy1e
    · obtain ⟨m, rfl⟩ : ∃ m, p = m + 5 := ⟨p - 5, by omega⟩
      have htake : ('\n' :: '#' :: '#' :: ' ' :: e :: t5).take (m + 5) =
          '\n' :: '#' :: '#' :: ' ' :: e :: t5.take m := rfl
      rw [htake]
      simp [isLA, he]

theorem subAll_idem (F : LC) (hpreF : listPre HDG F = true) (hF : hasLA F = false)
    (hlast : ∀ c, F.getLast? = some c → isWS c = false) :
    ∀ (n : Nat) (s : LC), s.length ≤ n →
      subAll (F ++ [ '\n' ]) (subAll (F ++ [ '\n' ]) s) = subAll (F ++ [ '\n' ]) s := by
  intro n
  induction n with
  | zero =>
    intro s hs
    have hnil : s = [] := List.eq_nil_of_length_eq_zero (by omega)
    subst hnil
    rw [subAll_nil, subAll_nil]
  | succ n ih =>
    intro s hs
    cases hfs : findSub HDG s with
    | none => rw [subAll_eq_self_of_none _ _ hfs, subAll_eq_self_of_none _ _ hfs]
    | some p =>
      obtain ⟨hocc, hmin⟩ := findSub_some hfs
      have h29 : HDG.length = 29 := by decide
      have hplen : p + HDG.length ≤ s.length := by
        have hl := listPre_length hocc
        simp only [List.length_drop] at hl
        omega
      rw [subAll_unfold _ _ hfs]
      have hu : ∀ i, listPre HDG ((s.take p).drop i) = false := by
        intro i
        by_cases hip : i < p
        · by_contra hcon
          rw [Bool.not_eq_false] at hcon
          rw [List.drop_take] at hcon
          have hthis := listPre_of_take hcon
          rw [hmin i hip] at hthis
          cases hthis
        · rw [List.drop_eq_nil_of_le (by
            simp only [List.length_take]
            omega)]
          decide
      have hv_or : s.drop (p + HDG.length + findLA (s.drop (p + HDG.length))) = [] ∨
          isLA (s.drop (p + HDG.length + findLA (s.drop (p + HDG.length)))) = true := by
        have hq : s.drop (p + HDG.length + findLA (s.drop (p + HDG.length))) =
            (s.drop (p + HDG.length)).drop (findLA (s.drop (p + HDG.length))) := by
          rw [List.drop_drop]
        rcases (findLA_spec (s.drop (p + HDG.length))).2 with hfin | hfin
        · left
          rw [hq, hfin]
          exact List.drop_length _
        · right
          rw [hq]
          exact hfin
      have hw_or :
          subAll (F ++ [ '\n' ]) (s.drop (p + HDG.length + findLA (s.drop (p + HDG.length)))) = [] ∨
          isLA (subAll (F ++ [ '\n' ])
            (s.drop (p + HDG.length + findLA (s.drop (p + HDG.length))))) = true := by
        rcases hv_or with hnil | hla
        · left
          rw [hnil, subAll_nil]
        · right
          exact subAll_isLA F hpreF hla
      rw [subAll_append F (s.take p) _ hpreF hF hlast hu hw_or]
      have hwlen : (s.drop (p + HDG.length + findLA (s.drop (p + HDG.length)))).length ≤ n := by
        simp only [List.length_drop]
        omega
      rw [ih _ hwlen]

theorem findSub_isSome_of_occ {pat s : LC} {i : Nat} (hne : pat ≠ [])
    (h : listPre pat (s.drop i) = true) : (findSub pat s).isSome = true := by
  cases hfs : findSub pat s with
  | some q => rfl
  | none =>
    have hall := findSub_none hne hfs i
    rw [h] at hall
    cases hall

theorem parseTemplFuel_no_bs :
    ∀ (fuel : Nat) (templ : LC), templ.length ≤ fuel → '\\' ∉ templ →
      parseTemplFuel fuel templ = some (templ.map TPiece.lit) := by
  intro fuel
  induction fuel with
  | zero =>
    intro templ hlen _
    cases templ with
    | nil => rfl
    | cons c cs => simp at hlen
  | succ n ih =>
    intro templ hlen hbs
    cases templ with
    | nil => rfl
    | cons c cs =>
      have hc : ¬(c = '\\') := fun h => hbs (h ▸ List.mem_cons_self c cs)
      rw [parseTemplFuel, if_neg hc,
        ih cs (by simp only [List.length_cons] at hlen; omega)
          (fun h => hbs (List.mem_cons_of_mem _ h))]
      rfl

theorem parseTempl_no_bs {templ : LC} (hbs : '\\' ∉ templ) :
    parseTempl templ = some (templ.map TPiece.lit) :=
  parseTemplFuel_no_bs templ.length templ (le_refl _) hbs

theorem instTempl_map_lit (m : LC) (templ : LC) :
    instTempl m (templ.map TPiece.lit) = templ := by
  induction templ with
  | nil => rfl
  | cons c cs ih =>
    show c :: instTempl m (cs.map TPiece.lit) = c :: cs
    rw [ih]

theorem subAllPFuel_map_lit (templ : LC) :
    ∀ (fuel : Nat) (s : LC),
      subAllPFuel (templ.map TPiece.lit) fuel s = subAllFuel templ fuel s := by
  intro fuel
  induction fuel with
  | zero => intro s; rfl
  | succ n ih =>
    intro s
    rw [subAllPFuel, subAllFuel]
    cases hfs : findSub HDG s with
    | none => rfl
    | some p =>
      dsimp only
      rw [instTempl_map_lit, ih]

theorem subAllT_no_bs (templ s : LC) (hbs : '\\' ∉ templ) :
    subAllT templ s = some (subAll templ s) := by
  unfold subAllT
  rw [parseTempl_no_bs hbs]
  show some (subAllPFuel (templ.map TPiece.lit) s.length s) = some (subAll templ s)
  rw [subAllPFuel_map_lit]
  rfl

theorem mem_rstrip {c : Char} {l : LC} (h : c ∈ rstrip l) : c ∈ l := by
  unfold rstrip at h
  rw [List.mem_reverse] at h
  have h2 : c ∈ l.reverse := (List.dropWhile_sublist _).subset h
  exact List.mem_reverse.mp h2

theorem updateTextE_no_bs (frag content : LC) (hbs : '\\' ∉ frag) :
    updateTextE frag content = some (updateText frag content) := by
  have hbs2 : '\\' ∉ rstrip frag ++ [ '\n' ] := by
    intro h
    rcases List.mem_append.mp h with h | h
    · exact hbs (mem_rstrip h)
    · exact absurd (List.mem_singleton.mp h) (by decide)
  unfold updateTextE updateText
  by_cases hocc : (findSub HDG content).isSome = true
  · rw [if_pos hocc, if_pos hocc]
    exact subAllT_no_bs _ _ hbs2
  · rw [if_neg hocc, if_neg hocc]
    cases findSub ANCHOR content <;> rfl

theorem updateText_idem_core (frag content : LC)
    (h1 : frag.takeWhile (fun c => c ≠ '\n') = HDG)
    (h2 : rstrip frag ++ [ '\n' ] = frag)
    (h3 : hasLA (rstrip frag) = false)
    (h4 : (findSub HDG content).isSome = true ∨ findSub ANCHOR content = none) :
    updateText frag (updateText frag content) = updateText frag content := by
  have hHDGne : HDG ≠ [] := by decide
  have h29 : HDG.length = 29 := by decide
  have hlast : ∀ c, (rstrip frag).getLast? = some c → isWS c = false :=
    fun c hc => rstrip_getLast hc
  have hpre_frag : listPre HDG frag = true := by
    rw [listPre_iff_take]
    have hpf := List.takeWhile_prefix (l := frag) (fun c => decide (c ≠ '\n'))
    rw [h1] at hpf
    exact (List.prefix_iff_eq_take.mp hpf).symm
  have hpreF : listPre HDG (rstrip frag) = true := by
    rcases Nat.lt_or_ge (rstrip frag).length HDG.length with hlt | hge
    · exfalso
      rw [← h2] at hpre_frag
      obtain ⟨_, hrest⟩ := listPre_split hpre_frag hlt
      cases hdr : HDG.drop (rstrip frag).length with
      | nil =>
        rw [List.drop_eq_nil_iff] at hdr
        omega
      | cons x xs =>
        rw [hdr, listPre_cons_iff] at hrest
        obtain ⟨ys, hys, _⟩ := hrest
        injection hys with hx _
        have hmem : x ∈ HDG := List.drop_subset _ _ (by rw [hdr]; exact List.mem_cons_self _ _)
        rw [← hx] at hmem
        exact absurd hmem (by decide)
    · rw [← h2] at hpre_frag
      rwa [listPre_append_long _ hge] at hpre_frag
  by_cases hocc : (findSub HDG content).isSome = true
  · have hupd1 : updateText frag content = subAll (rstrip frag ++ [ '\n' ]) content := by
      unfold updateText
      rw [if_pos hocc]
    obtain ⟨p, hp⟩ := Option.isSome_iff_exists.mp hocc
    have hfind2 : (findSub HDG (subAll (rstrip frag ++ [ '\n' ]) content)).isSome = true := by
      have hexists : listPre HDG
          ((subAll (rstrip frag ++ [ '\n' ]) content).drop (content.take p).length) = true := by
        rw [subAll_unfold _ _ hp, List.append_assoc, List.drop_left]
        exact listPre_trans_append _ (listPre_trans_append _ hpreF)
      exact findSub_isSome_of_occ hHDGne hexists
    have hupd2 : updateText frag (subAll (rstrip frag ++ [ '\n' ]) content) =
        subAll (rstrip frag ++ [ '\n' ]) (subAll (rstrip frag ++ [ '\n' ]) content) := by
      unfold updateText
      rw [if_pos hfind2]
    rw [hupd1, hupd2]
    exact subAll_idem (rstrip frag) hpreF h3 hlast content.length content (le_refl _)
  · have hanchor : findSub ANCHOR content = none := by
      rcases h4 with h4 | h4
      · exact absurd h4 hocc
      · exact h4
    have hnone : findSub HDG content = none := by
      cases hfs : findSub HDG content with
      | none => rfl
      | some q => rw [hfs] at hocc; simp at hocc
    have hupd1 : updateText frag content = rstrip content ++ toL "\n\n" ++ frag := by
      unfold updateText
      rw [if_neg (by rw [hnone]; simp), hanchor]
    have hfree : ∀ i, listPre HDG ((rstrip content ++ toL "\n\n").drop i) = false := by
      intro i
      by_cases hi : i ≤ (rstrip content).length
      · rw [List.drop_append_of_le_length hi]
        by_cases hlong : HDG.length ≤ ((rstrip content).drop i).length
        · rw [listPre_append_long _ hlong]
          by_contra hcon
          rw [Bool.not_eq_false] at hcon
          obtain ⟨w, _, hdecomp⟩ := rstrip_decomp content
          have hconc : listPre HDG (content.drop i) = true := by
            rw [hdecomp, List.drop_append_of_le_length hi]
            exact listPre_trans_append _ hcon
          have hall := findSub_none hHDGne hnone i
          rw [hconc] at hall
          cases hall
        · by_contra hcon
          rw [Bool.not_eq_false] at hcon
          obtain ⟨_, hrest⟩ := listPre_split hcon (by omega)
          cases hdr : HDG.drop ((rstrip content).drop i).length with
          | nil =>
            rw [List.drop_eq_nil_iff] at hdr
            omega
          | cons x xs =>
            rw [hdr, listPre_cons_iff] at hrest
            obtain ⟨ys, hys, _⟩ := hrest
            injection hys with hx _
            have hmem : x ∈ HDG :=
              List.drop_subset _ _ (by rw [hdr]; exact List.mem_cons_self _ _)
            rw [← hx] at hmem
            exact absurd hmem (by decide)
      · have hform : (rstrip content ++ toL "\n\n").drop i =
            (toL "\n\n").drop (i - (rstrip content).length) := by
          conv_lhs =>
            rw [show i = (rstrip content).length + (i - (rstrip content).length) from by omega]
          rw [drop_append_len]
        rw [hform]
        match hm : i - (rstrip content).length with
        | 0 => decide
        | 1 => decide
        | k + 2 =>
          rw [show (toL "\n\n").drop (k + 2) = [] from by simp [toL]]
          decide
    have hfind2 : (findSub HDG (rstrip content ++ toL "\n\n" ++ frag)).isSome = true := by
      have hexists : listPre HDG
          ((rstrip content ++ toL "\n\n" ++ frag).drop (rstrip content ++ toL "\n\n").length) =
          true := by
        rw [List.drop_left]
        exact hpre_frag
      exact findSub_isSome_of_occ hHDGne hexists
    have hupd2 : updateText frag (rstrip content ++ toL "\n\n" ++ frag) =
        subAll (rstrip frag ++ [ '\n' ]) (rstrip content ++ toL "\n\n" ++ frag) := by
      unfold updateText
      rw [if_pos hfind2]
    have hshape : rstrip content ++ toL "\n\n" ++ frag =
        (rstrip content ++ toL "\n\n") ++ (rstrip frag ++ [ '\n' ]) ++ [] := by
      rw [h2]
      simp
    rw [hupd1, hupd2, hshape,
      subAll_append (rstrip frag) _ _ hpreF h3 hlast hfree (Or.inl rfl), subAll_nil]

/-- C1 (amended): the region-replacement transform of `update_readme` is
idempotent for every backslash-free fragment whose first line is exactly the
heading `## Current Issues by Priority`, which ends in exactly one trailing
newline, and whose stripped body contains no `"\n## "` followed by a non-`#`
character (all of which `generate_index_section` outputs with
backslash-free, non-degenerate titles satisfy), on every document that
either already contains the heading (replace case) or has no
`\n## Integration` anchor (append case): both applications of the faithful
transform succeed — no `re.error` — and the second returns its input
unchanged.  The backslash-freedom matters because `re.sub` escape-processes
a string replacement; the insert-before-anchor case of the original claim is
refuted by `update_readme_not_idempotent_counterexample`. -/
theorem update_readme_idempotent (frag content : LC)
    (hb : '\\' ∉ frag)
    (h1 : frag.takeWhile (fun c => c ≠ '\n') = HDG)
    (h2 : rstrip frag ++ [ '\n' ] = frag)
    (h3 : hasLA (rstrip frag) = false)
    (h4 : (findSub HDG content).isSome = true ∨ findSub ANCHOR content = none) :
    updateTextE frag content = some (updateText frag content) ∧
    updateTextE frag (updateText frag content) = some (updateText frag content) := by
  refine ⟨updateTextE_no_bs frag content hb, ?_⟩
  rw [updateTextE_no_bs frag (updateText frag content) hb,
    updateText_idem_core frag content h1 h2 h3 h4]

/-- C1 counterexample: the transform is not idempotent as claimed.  First
input: a generated-shape fragment (ending in one newline) inserted before the
`## Integration` anchor leaves `"\n\n\n"` before the anchor, which a second
application collapses to `"\n\n"`.  Second input: a fragment containing a
further `## ` line breaks idempotence even in the replace-existing-region
case. -/
theorem update_readme_not_idempotent_counterexample :
    (updateText (toL "## Current Issues by Priority\n\n**High Priority:** None currently\n")
        (updateText (toL "## Current Issues by Priority\n\n**High Priority:** None currently\n")
          (toL "Intro\n\n## Integration\nStuff\n")) ≠
      updateText (toL "## Current Issues by Priority\n\n**High Priority:** None currently\n")
        (toL "Intro\n\n## Integration\nStuff\n")) ∧
    (updateText (toL "## Current Issues by Priority\nA\n## Other\nB\n")
        (updateText (toL "## Current Issues by Priority\nA\n## Other\nB\n")
          (toL "## Current Issues by Priority\nold\n")) ≠
      updateText (toL "## Current Issues by Priority\nA\n## Other\nB\n")
        (toL "## Current Issues by Priority\nold\n")) := by
  exact ⟨by decide, by decide⟩

/-- Witness for C1: a concrete replace-branch instance of the amended claim. -/
theorem update_readme_idempotent_witness :
    updateTextE (toL "## Current Issues by Priority\nbody\n")
        (toL "## Current Issues by Priority\nold\n") =
      some (updateText (toL "## Current Issues by Priority\nbody\n")
        (toL "## Current Issues by Priority\nold\n")) ∧
    updateTextE (toL "## Current Issues by Priority\nbody\n")
        (updateText (toL "## Current Issues by Priority\nbody\n")
          (toL "## Current Issues by Priority\nold\n")) =
      some (updateText (toL "## Current Issues by Priority\nbody\n")
        (toL "## Current Issues by Priority\nold\n")) :=
  update_readme_idempotent _ _ (by decide) (by decide) (by decide) (by decide)
    (Or.inl (by decide))

theorem updateText_frame_core (frag content : LC) (p : Nat)
    (hp : findSub HDG content = some p)
    (hone : findSub HDG
      (content.drop (p + HDG.length + findLA (content.drop (p + HDG.length)))) = none) :
    updateText frag content =
      content.take p ++ (rstrip frag ++ [ '\n' ]) ++
        content.drop (p + HDG.length + findLA (content.drop (p + HDG.length))) := by
  have hocc : (findSub HDG content).isSome = true := by
    rw [hp]
    rfl
  unfold updateText
  rw [if_pos hocc, subAll_unfold _ _ hp, subAll_eq_self_of_none _ _ hone]

/-- C4 (amended): when the fragment is backslash-free (so that `re.sub`'s
template processing is the identity and raises nothing), the heading occurs
in the document, and the text after the (first) replaced region contains no
further occurrence of the heading, `update_readme`'s transform succeeds and
is exactly: everything before the first heading occurrence, then the
stripped fragment plus one newline, then everything from the region end
onward — the region ending at the first following `"\n## "` line of the same
level (`[^#]` lookahead) or at the end of the document.  Every character
outside `[p, e)` is preserved verbatim.  The original claim's
"equal-or-higher level" boundary is refuted by
`update_readme_frame_counterexample`: an H1 heading does not stop the
region; and for a fragment with backslash escapes the spliced text is the
escape-processed template, not the fragment. -/
theorem update_readme_frame (frag content : LC) (p : Nat)
    (hb : '\\' ∉ frag)
    (hp : findSub HDG content = some p)
    (hone : findSub HDG
      (content.drop (p + HDG.length + findLA (content.drop (p + HDG.length)))) = none) :
    updateTextE frag content =
      some (content.take p ++ (rstrip frag ++ [ '\n' ]) ++
        content.drop (p + HDG.length + findLA (content.drop (p + HDG.length)))) := by
  rw [updateTextE_no_bs frag content hb, updateText_frame_core frag content p hp hone]

/-- C4 counterexample: an H1 heading (higher level than the H2 region
heading) does not terminate the region: the text `"# Top"` and everything
after it, which occurs in the document after the region start (at index 34),
is deleted by the replacement instead of being preserved. -/
theorem update_readme_frame_counterexample :
    findSub (toL "# Top") (toL "## Current Issues by Priority\nold\n# Top\nrest\n") = some 34 ∧
    findSub (toL "# Top")
      (updateText (toL "## Current Issues by Priority\nnew\n")
        (toL "## Current Issues by Priority\nold\n# Top\nrest\n")) = none := by
  exact ⟨by decide, by decide⟩

/-- Witness for C4 at a concrete document with prefix, H2 suffix and a single
heading occurrence. -/
theorem update_readme_frame_witness :
    updateTextE (toL "## Current Issues by Priority\nnew\n")
        (toL "A\n## Current Issues by Priority\nold\n## B\nrest") =
      some ((toL "A\n## Current Issues by Priority\nold\n## B\nrest").take 2 ++
        (rstrip (toL "## Current Issues by Priority\nnew\n") ++ [ '\n' ]) ++
        (toL "A\n## Current Issues by Priority\nold\n## B\nrest").drop
          (2 + HDG.length + findLA ((toL "A\n## Current Issues by Priority\nold\n## B\nrest").drop
            (2 + HDG.length)))) :=
  update_readme_frame _ _ 2 (by decide) (by decide) (by decide)

theorem length_dropWhile_le {α : Type _} (p : α → Bool) (t : List α) :
    (t.dropWhile p).length ≤ t.length := by
  induction t with
  | nil => simp
  | cons a as ih =>
    rw [List.dropWhile_cons]
    split
    · simp only [List.length_cons]
      omega
    · simp

theorem dropLine_length_lt (c : Char) (cs : LC) :
    (dropLine (c :: cs)).length < (c :: cs).length := by
  unfold dropLine
  have h1 := length_dropWhile_le (fun x => decide (x ≠ '\n')) (c :: cs)
  simp only [List.length_drop, List.length_cons] at h1 ⊢
  omega

theorem findHeadingFuel_mono :
    ∀ f1 f2 l, l.length ≤ f1 → l.length ≤ f2 → findHeadingFuel f1 l = findHeadingFuel f2 l := by
  intro f1
  induction f1 with
  | zero =>
    intro f2 l h1 h2
    have hnil : l = [] := List.eq_nil_of_length_eq_zero (by omega)
    subst hnil
    cases f2 with
    | zero => rfl
    | succ m => rfl
  | succ k ih =>
    intro f2 l h1 h2
    cases f2 with
    | zero =>
      have hnil : l = [] := List.eq_nil_of_length_eq_zero (by omega)
      subst hnil
      rfl
    | succ m =>
      cases l with
      | nil => rfl
      | cons c cs =>
        rw [findHeadingFuel, findHeadingFuel]
        cases hm : (if c = '#' then matchH cs else none) with
        | some g => rfl
        | none =>
          dsimp only
          have hlt := dropLine_length_lt c cs
          apply ih
          · simp only [List.length_cons] at h1 hlt ⊢
            omega
          · simp only [List.length_cons] at h2 hlt ⊢
            omega

theorem findHeading_cons_some {c : Char} {cs g : LC}
    (h : (if c = '#' then matchH cs else none) = some g) : findHeading (c :: cs) = some g := by
  unfold findHeading
  rw [show (c :: cs).length = cs.length + 1 from rfl, findHeadingFuel, h]

theorem findHeading_cons_none {c : Char} {cs : LC}
    (h : (if c = '#' then matchH cs else none) = none) :
    findHeading (c :: cs) = findHeading (dropLine (c :: cs)) := by
  unfold findHeading
  rw [show (c :: cs).length = cs.length + 1 from rfl, findHeadingFuel, h]
  dsimp only
  have hlt := dropLine_length_lt c cs
  apply findHeadingFuel_mono
  · simp only [List.length_cons] at hlt ⊢
    omega
  · exact le_refl _

theorem drop_length_takeWhile {α : Type _} (p : α → Bool) (t : List α) :
    t.drop (t.takeWhile p).length = t.dropWhile p := by
  induction t with
  | nil => rfl
  | cons a as ih =>
    rw [List.takeWhile_cons, List.dropWhile_cons]
    split
    · simpa using ih
    · simp

theorem matchH_some_ne_nil {rest g : LC} (h : matchH rest = some g) : g ≠ [] := by
  simp only [matchH] at h
  split at h
  · cases h
  · split at h
    · next hw hlt =>
      injection h with hg
      subst hg
      rw [drop_length_takeWhile] at *
      cases hd : rest.dropWhile isWS with
      | nil =>
        exfalso
        have htl := List.takeWhile_append_dropWhile isWS rest
        rw [hd, List.append_nil] at htl
        rw [htl] at hlt
        omega
      | cons x xs =>
        have hx : isWS x = false := head?_dropWhile (by rw [hd]; rfl)
        have hxnl : x ≠ '\n' := by
          intro hxx
          rw [hxx] at hx
          exact absurd hx (by decide)
        unfold takeLine
        rw [List.takeWhile_cons, if_pos (by simpa using hxnl)]
        simp
    · split at h
      · injection h with hg
        subst hg
        simp
      · cases h

theorem findHeading_some_ne_nil : ∀ fuel (l t : LC), findHeadingFuel fuel l = some t → t ≠ [] := by
  intro fuel
  induction fuel with
  | zero =>
    intro l t h
    cases h
  | succ k ih =>
    intro l t h
    cases l with
    | nil => cases h
    | cons c cs =>
      rw [findHeadingFuel] at h
      cases hm : (if c = '#' then matchH cs else none) with
      | some g =>
        rw [hm] at h
        dsimp only at h
        injection h with hg
        subst hg
        by_cases hc : c = '#'
        · rw [if_pos hc] at hm
          exact matchH_some_ne_nil hm
        · rw [if_neg hc] at hm
          cases hm
      | none =>
        rw [hm] at h
        dsimp only at h
        exact ih _ _ h

/-- C3 (amended): `extract_title` returns exactly the fixed placeholder
`"Untitled"` whenever no line of the frontmatter-skipped text matches the
heading regex; its result can however be the empty string — exactly when the
regex matches with a nonempty, all-whitespace group (e.g. a line `"#  "`),
refuting the original claim's "never returns the empty string"
(`extract_title_empty_counterexample`). -/
theorem extract_title_placeholder (content : LC) :
    (findHeading (skipFrontmatter content) = none → extract_title content = untitled) ∧
    (extract_title content = [] →
      ∃ t, findHeading (skipFrontmatter content) = some t ∧ t ≠ [] ∧ ∀ c ∈ t, isWS c = true) := by
  constructor
  · intro h
    unfold extract_title
    rw [h]
  · intro h
    unfold extract_title at h
    cases hf : findHeading (skipFrontmatter content) with
    | none =>
      rw [hf] at h
      exact absurd h (by decide)
    | some t =>
      rw [hf] at h
      dsimp only at h
      exact ⟨t, rfl, findHeading_some_ne_nil _ _ _ hf, pyStrip_eq_nil h⟩

/-- C3 counterexample: on the input `"#  "` (a hash and two spaces) the regex
`^#\s+(.+)$` matches with group `" "` via backtracking, `strip` empties it,
and `extract_title` returns the empty string, not `"Untitled"` and not a
non-empty string. -/
theorem extract_title_empty_counterexample :
    extract_title (toL "#  ") = [] ∧ untitled ≠ [] := by
  exact ⟨by decide, by decide⟩

/-- Witness for C3 at concrete inputs: a heading-free text yields the
placeholder; `"#  "` exhibits the all-whitespace-group case. -/
theorem extract_title_placeholder_witness :
    extract_title (toL "just text\nno heading") = untitled ∧
    ∃ t, findHeading (skipFrontmatter (toL "#  ")) = some t ∧ t ≠ [] ∧
      ∀ c ∈ t, isWS c = true := by
  constructor
  · exact (extract_title_placeholder (toL "just text\nno heading")).1 (by decide)
  · exact (extract_title_placeholder (toL "#  ")).2 (by decide)

/-- C2: evaluating the embedded scanner at the spec's example text.  The
frontmatter parses to priority `High` and status `open`, and the record lands
in the `high` bucket, but the title is `"Untitled"`, not
`"Fix race condition"`: `extract_title` drops `end_match.end() + 4` = one
character too many after the closing `"\n---\n"` (the slice base is
`content[3:]`, so the correct offset is `+ 3`), which eats the `#` of the
heading that immediately follows the frontmatter. -/
theorem scan_example_evaluation :
    (mkIssue (toL "file.md")
      (toL "---\npriority: High\nstatus: open\n---\n# Fix race condition\nDetails...")).priority =
        toL "High" ∧
    (mkIssue (toL "file.md")
      (toL "---\npriority: High\nstatus: open\n---\n# Fix race condition\nDetails...")).status =
        toL "open" ∧
    (mkIssue (toL "file.md")
      (toL "---\npriority: High\nstatus: open\n---\n# Fix race condition\nDetails...")).title =
        toL "Untitled" ∧
    (mkIssue (toL "file.md")
      (toL "---\npriority: High\nstatus: open\n---\n# Fix race condition\nDetails...")).title ≠
        toL "Fix race condition" ∧
    mkIssue (toL "file.md")
        (toL "---\npriority: High\nstatus: open\n---\n# Fix race condition\nDetails...") ∈
      (bucketsOf [mkIssue (toL "file.md")
        (toL "---\npriority: High\nstatus: open\n---\n# Fix race condition\nDetails...")]).high := by
  exact ⟨by decide, by decide, by decide, by decide, by decide⟩

theorem addIssue_low_mono (b : Buckets) (j : Issue) {i : Issue} (h : i ∈ b.low) :
    i ∈ (addIssue b j).low := by
  simp only [addIssue]
  split
  · exact h
  · split
    · exact h
    · show i ∈ b.low ++ [j]
      exact List.mem_append_left _ h

theorem addIssue_low_self (b : Buckets) (j : Issue)
    (h1 : lowerL j.priority ≠ toL "high") (h2 : lowerL j.priority ≠ toL "medium") :
    j ∈ (addIssue b j).low := by
  simp only [addIssue]
  rw [if_neg h1, if_neg h2]
  show j ∈ b.low ++ [j]
  exact List.mem_append_right _ (List.mem_cons_self j [])

theorem foldl_addIssue_low_mono (rest : List Issue) :
    ∀ (b : Buckets) (i : Issue), i ∈ b.low → i ∈ (rest.foldl addIssue b).low := by
  induction rest with
  | nil => intro b i h; exact h
  | cons j js ih =>
    intro b i h
    rw [List.foldl_cons]
    exact ih (addIssue b j) i (addIssue_low_mono b j h)

theorem foldl_addIssue_low_self (issues : List Issue) :
    ∀ (b : Buckets) (i : Issue), i ∈ issues →
      lowerL i.priority ≠ toL "high" → lowerL i.priority ≠ toL "medium" →
      i ∈ (issues.foldl addIssue b).low := by
  induction issues with
  | nil => intro b i h _ _; cases h
  | cons j js ih =>
    intro b i h h1 h2
    rw [List.foldl_cons]
    rcases List.mem_cons.mp h with rfl | h'
    · exact foldl_addIssue_low_mono js (addIssue b i) i (addIssue_low_self b i h1 h2)
    · exact ih (addIssue b j) i h' h1 h2

theorem addIssue_high_mem {b : Buckets} {j i : Issue} (h : i ∈ (addIssue b j).high) :
    i ∈ b.high ∨ (i = j ∧ lowerL j.priority = toL "high") := by
  simp only [addIssue] at h
  by_cases h1 : lowerL j.priority = toL "high"
  · rw [if_pos h1] at h
    replace h : i ∈ b.high ++ [j] := h
    rcases List.mem_append.mp h with h' | h'
    · exact Or.inl h'
    · exact Or.inr ⟨List.mem_singleton.mp h', h1⟩
  · rw [if_neg h1] at h
    by_cases h2 : lowerL j.priority = toL "medium"
    · rw [if_pos h2] at h
      exact Or.inl h
    · rw [if_neg h2] at h
      exact Or.inl h

theorem addIssue_medium_mem {b : Buckets} {j i : Issue} (h : i ∈ (addIssue b j).medium) :
    i ∈ b.medium ∨ (i = j ∧ lowerL j.priority = toL "medium") := by
  simp only [addIssue] at h
  by_cases h1 : lowerL j.priority = toL "high"
  · rw [if_pos h1] at h
    exact Or.inl h
  · rw [if_neg h1] at h
    by_cases h2 : lowerL j.priority = toL "medium"
    · rw [if_pos h2] at h
      replace h : i ∈ b.medium ++ [j] := h
      rcases List.mem_append.mp h with h' | h'
      · exact Or.inl h'
      · exact Or.inr ⟨List.mem_singleton.mp h', h2⟩
    · rw [if_neg h2] at h
      exact Or.inl h

theorem foldl_addIssue_high_mem (issues : List Issue) :
    ∀ (b : Buckets) (i : Issue), i ∈ (issues.foldl addIssue b).high →
      i ∈ b.high ∨ (i ∈ issues ∧ lowerL i.priority = toL "high") := by
  induction issues with
  | nil => intro b i h; exact Or.inl h
  | cons j js ih =>
    intro b i h
    rw [List.foldl_cons] at h
    rcases ih (addIssue b j) i h with h' | h'
    · rcases addIssue_high_mem h' with h'' | ⟨rfl, hp⟩
      · exact Or.inl h''
      · exact Or.inr ⟨List.mem_cons_self _ _, hp⟩
    · exact Or.inr ⟨List.mem_cons_of_mem _ h'.1, h'.2⟩

theorem foldl_addIssue_medium_mem (issues : List Issue) :
    ∀ (b : Buckets) (i : Issue), i ∈ (issues.foldl addIssue b).medium →
      i ∈ b.medium ∨ (i ∈ issues ∧ lowerL i.priority = toL "medium") := by
  induction issues with
  | nil => intro b i h; exact Or.inl h
  | cons j js ih =>
    intro b i h
    rw [List.foldl_cons] at h
    rcases ih (addIssue b j) i h with h' | h'
    · rcases addIssue_medium_mem h' with h'' | ⟨rfl, hp⟩
      · exact Or.inl h''
      · exact Or.inr ⟨List.mem_cons_self _ _, hp⟩
    · exact Or.inr ⟨List.mem_cons_of_mem _ h'.1, h'.2⟩

theorem insertByFn_mem {a x : Issue} (l : List Issue) (h : a = x ∨ a ∈ l) :
    a ∈ insertByFn x l := by
  induction l with
  | nil =>
    rcases h with rfl | h
    · simp [insertByFn]
    · cases h
  | cons y ys ih =>
    simp only [insertByFn]
    split
    · rcases h with rfl | h
      · exact List.mem_cons_of_mem _ (ih (Or.inl rfl))
      · rcases List.mem_cons.mp h with rfl | h'
        · exact List.mem_cons_self _ _
        · exact List.mem_cons_of_mem _ (ih (Or.inr h'))
    · rcases h with rfl | h
      · exact List.mem_cons_self _ _
      · exact List.mem_cons_of_mem _ h

theorem sortByFn_mem {i : Issue} (l : List Issue) (h : i ∈ l) : i ∈ sortByFn l := by
  induction l with
  | nil => cases h
  | cons y ys ih =>
    show i ∈ insertByFn y (sortByFn ys)
    rcases List.mem_cons.mp h with rfl | h'
    · exact insertByFn_mem _ (Or.inl rfl)
    · exact insertByFn_mem _ (Or.inr (ih h'))

theorem issueLine_mem_sectionFor_low {b : Buckets} {i : Issue} (h : i ∈ b.low) :
    issueLine i ∈ sectionFor (toL "low") b := by
  have hm : i ∈ sortByFn b.low := sortByFn_mem b.low h
  simp only [sectionFor]
  rw [if_neg (by decide : ¬(toL "low" = toL "high")),
    if_neg (by decide : ¬(toL "low" = toL "medium"))]
  cases hs : sortByFn b.low with
  | nil => rw [hs] at hm; cases hm
  | cons y ys =>
    rw [hs] at hm
    rw [if_neg (by simp : ¬((y :: ys).isEmpty = true))]
    exact List.mem_cons_of_mem _ (List.mem_append_left _ (List.mem_map_of_mem _ hm))

theorem issueLine_mem_indexLines (ts : LC) (issues : List Issue) {i : Issue}
    (h : i ∈ (bucketsOf issues).low) :
    issueLine i ∈ indexLines ts issues := by
  have hsec : issueLine i ∈ sectionFor (toL "low") (bucketsOf issues) :=
    issueLine_mem_sectionFor_low h
  simp only [indexLines, PRIORITY_ORDER, List.map_cons, List.map_nil, List.flatten_cons,
    List.flatten_nil]
  exact List.mem_append_right _
    (List.mem_append_right _ (List.mem_append_right _ (List.mem_append_left _ hsec)))

/-- C7: a record whose lowercased priority is none of `high`, `medium`, `low`
is placed by the grouping loop of `generate_index_section` in the `low` bucket,
in no other bucket, and its rendered line appears in the Low Priority
sub-section and among the generated index lines — the record is neither
dropped nor does anything fail (the embedding is a total function). -/
theorem fallback_priority_lands_low (ts : LC) (issues : List Issue) (i : Issue)
    (hmem : i ∈ issues)
    (h1 : lowerL i.priority ≠ toL "high")
    (h2 : lowerL i.priority ≠ toL "medium")
    (h3 : lowerL i.priority ≠ toL "low") :
    i ∈ (bucketsOf issues).low ∧
    i ∉ (bucketsOf issues).high ∧
    i ∉ (bucketsOf issues).medium ∧
    issueLine i ∈ sectionFor (toL "low") (bucketsOf issues) ∧
    issueLine i ∈ indexLines ts issues := by
  have hlow : i ∈ (bucketsOf issues).low :=
    foldl_addIssue_low_self issues ⟨[], [], []⟩ i hmem h1 h2
  refine ⟨hlow, ?_, ?_, issueLine_mem_sectionFor_low hlow,
    issueLine_mem_indexLines ts issues hlow⟩
  · intro h
    rcases foldl_addIssue_high_mem issues ⟨[], [], []⟩ i h with h' | h'
    · exact (List.not_mem_nil i) h'
    · exact h1 h'.2
  · intro h
    rcases foldl_addIssue_medium_mem issues ⟨[], [], []⟩ i h with h' | h'
    · exact (List.not_mem_nil i) h'
    · exact h2 h'.2

/-- Witness for C7 at a concrete record with priority `"urgent"`. -/
theorem fallback_priority_lands_low_witness :
    (⟨toL "a.md", toL "T", toL "urgent", toL "open", toL "bug", []⟩ : Issue) ∈
        (bucketsOf [⟨toL "a.md", toL "T", toL "urgent", toL "open", toL "bug", []⟩]).low ∧
    (⟨toL "a.md", toL "T", toL "urgent", toL "open", toL "bug", []⟩ : Issue) ∉
        (bucketsOf [⟨toL "a.md", toL "T", toL "urgent", toL "open", toL "bug", []⟩]).high ∧
    (⟨toL "a.md", toL "T", toL "urgent", toL "open", toL "bug", []⟩ : Issue) ∉
        (bucketsOf [⟨toL "a.md", toL "T", toL "urgent", toL "open", toL "bug", []⟩]).medium ∧
    issueLine ⟨toL "a.md", toL "T", toL "urgent", toL "open", toL "bug", []⟩ ∈
        sectionFor (toL "low")
          (bucketsOf [⟨toL "a.md", toL "T", toL "urgent", toL "open", toL "bug", []⟩]) ∧
    issueLine ⟨toL "a.md", toL "T", toL "urgent", toL "open", toL "bug", []⟩ ∈
        indexLines (toL "2024-05-01")
          [⟨toL "a.md", toL "T", toL "urgent", toL "open", toL "bug", []⟩] :=
  fallback_priority_lands_low (toL "2024-05-01")
    [⟨toL "a.md", toL "T", toL "urgent", toL "open", toL "bug", []⟩]
    ⟨toL "a.md", toL "T", toL "urgent", toL "open", toL "bug", []⟩
    (by decide) (by decide) (by decide) (by decide)

/-- C8 (amended): when the README state is `none` (file missing)
`update_readme` writes nothing, prints the error message and `main` exits 1.
When the README exists, the transformed document is written and the process
exits 0 — provided `re.sub`'s template processing of the generated section
succeeds, as it does in particular for every backslash-free section; when it
raises (`updateTextE` is `none`), the uncaught `re.error` ends the process
with a non-zero code and the README keeps its old text.  The original
claim's unconditional success half is refuted by
`readme_crash_counterexample`. -/
theorem update_readme_exit_paths (fs : Option LC) (ns : LC) :
    (fs = none →
      mainExit fs ns = (none, 1) ∧
      (update_readme fs ns).printed = [toL "ERROR: README not found"] ∧
      (update_readme fs ns).readme = none) ∧
    (∀ c, fs = some c → '\\' ∉ ns →
      mainExit fs ns = (some (updateText ns c), 0)) ∧
    (∀ c out, fs = some c → updateTextE ns c = some out →
      mainExit fs ns = (some out, 0)) ∧
    (∀ c, fs = some c → updateTextE ns c = none →
      mainExit fs ns = (some c, 1) ∧ (update_readme fs ns).raised = true) := by
  refine ⟨?_, ?_, ?_, ?_⟩
  · rintro rfl
    exact ⟨rfl, rfl, rfl⟩
  · rintro c rfl hbs
    simp only [mainExit, update_readme, updateTextE_no_bs ns c hbs]
    rfl
  · rintro c out rfl h
    simp only [mainExit, update_readme, h]
    rfl
  · rintro c rfl h
    refine ⟨?_, ?_⟩
    · simp only [mainExit, update_readme, h]
      rfl
    · simp only [update_readme, h]

/-- C8 counterexample: with the README present and containing the heading, a
generated section containing the replacement escape `\q` (bad in `re.sub`
string replacements) makes `re.sub` raise `re.error`, which propagates out
of `update_readme`: the process exits with a non-zero code and nothing is
written — refuting the claim's "if the README does exist, the updated
document is written and the process exits with code 0". -/
theorem readme_crash_counterexample :
    mainExit (some (toL "## Current Issues by Priority\nold\n"))
        (toL "## Current Issues by Priority\n- \\q bad\n") =
      (some (toL "## Current Issues by Priority\nold\n"), 1) ∧
    (update_readme (some (toL "## Current Issues by Priority\nold\n"))
        (toL "## Current Issues by Priority\n- \\q bad\n")).raised = true ∧
    updateTextE (toL "## Current Issues by Priority\n- \\q bad\n")
        (toL "## Current Issues by Priority\nold\n") = none :=
  ⟨by decide, by decide, by decide⟩

/-- Witness for C8: the missing branch, a backslash-free success, and a
raising template, all at concrete states. -/
theorem update_readme_exit_paths_witness :
    (mainExit none (toL "frag") = (none, 1) ∧
     (update_readme none (toL "frag")).printed = [toL "ERROR: README not found"] ∧
     (update_readme none (toL "frag")).readme = none) ∧
    mainExit (some (toL "# R\n")) (toL "frag") =
      (some (updateText (toL "frag") (toL "# R\n")), 0) ∧
    mainExit (some (toL "## Current Issues by Priority\nx\n")) (toL "\\q") =
      (some (toL "## Current Issues by Priority\nx\n"), 1) :=
  ⟨(update_readme_exit_paths none (toL "frag")).1 rfl,
   (update_readme_exit_paths (some (toL "# R\n")) (toL "frag")).2.1
     (toL "# R\n") rfl (by decide),
   ((update_readme_exit_paths (some (toL "## Current Issues by Priority\nx\n"))
       (toL "\\q")).2.2.2
     (toL "## Current Issues by Priority\nx\n") rfl (by decide)).1⟩

/-- C9: on the spec's example stdin, with `/proj/.memory-bank` existing and
the transcript an existing regular file, the archiver exits 0 and the copy
destination is `proj/.memory-bank/sessions/` with filename
`now ++ "_" ++ "abcdef12" ++ ".jsonl"` — the timestamp, an underscore, the
first 8 characters of the session id, and the fixed `.jsonl` extension; the
project root is the starting `cwd` itself since it contains `.memory-bank`. -/
theorem archive_spec_example (fs : ArchiveFS) (now : LC)
    (hdir : fs.dirExists [toL "proj", memoryBank] = true)
    (hfile : fs.kind (toL "/tmp/t.jsonl") = some FKind.file) :
    archive fs now [] ⟨some (toL "abcdef1234"), some (toL "/tmp/t.jsonl"),
        some [toL "proj"], some (toL "exit")⟩ =
      { exit := 0, failure := none,
        dest := some ([toL "proj", memoryBank, toL "sessions"],
          now ++ toL "_" ++ toL "abcdef12" ++ toL ".jsonl"),
        shortId := toL "abcdef12",
        sessionIdUsed := toL "abcdef1234",
        reasonUsed := toL "exit" } := by
  have hroot : find_project_root fs.dirExists [toL "proj"] = [toL "proj"] := by
    have h1 : findRootFuel fs.dirExists [toL "proj"] 1 [toL "proj"] = [toL "proj"] := by
      simp only [findRootFuel]
      rw [show [toL "proj"] ++ [memoryBank] = [toL "proj", memoryBank] from rfl]
      rw [if_pos hdir]
    exact h1
  simp only [archive, Option.getD_some]
  rw [show pathOf (toL "/tmp/t.jsonl") = toL "/tmp/t.jsonl" from by decide]
  rw [hfile, hroot]
  rw [if_neg (by simp), if_pos rfl]
  rfl

/-- Witness for C9 at a fully concrete filesystem and timestamp. -/
theorem archive_spec_example_witness :
    archive
      ⟨fun s => if s = toL "/tmp/t.jsonl" then some FKind.file else none,
       fun p => decide (p = [toL "proj", memoryBank])⟩
      (toL "2024-05-01_1230") []
      ⟨some (toL "abcdef1234"), some (toL "/tmp/t.jsonl"),
        some [toL "proj"], some (toL "exit")⟩ =
      { exit := 0, failure := none,
        dest := some ([toL "proj", memoryBank, toL "sessions"],
          toL "2024-05-01_1230" ++ toL "_" ++ toL "abcdef12" ++ toL ".jsonl"),
        shortId := toL "abcdef12",
        sessionIdUsed := toL "abcdef1234",
        reasonUsed := toL "exit" } :=
  archive_spec_example
    ⟨fun s => if s = toL "/tmp/t.jsonl" then some FKind.file else none,
     fun p => decide (p = [toL "proj", memoryBank])⟩
    (toL "2024-05-01_1230") (by decide) (by decide)

theorem archive_shortId_take (fs : ArchiveFS) (now : LC) (dot : List LC) (inp : SessionInput) :
    (archive fs now dot inp).shortId = (inp.session_id.getD (toL "unknown")).take 8 := by
  simp only [archive]
  split
  · rfl
  · split
    · rfl
    · rfl

/-- C10 (amended): once the stdin JSON parses, no missing field makes the
archiver fail: absent `session_id`/`reason` default to `"unknown"`, absent
`cwd` defaults to `Path('.')`, a session id of at most 8 characters is used
whole in the filename, and the exit code is 1 exactly when the transcript
path is not an existing regular file — via the not-found guard when the path
does not exist at all, and via the failing copy when it names a directory
(which is what happens for an absent `transcript_path`, since
`Path('')` is `Path('.')` and the working directory exists). -/
theorem archive_field_defaults (fs : ArchiveFS) (now : LC) (dot : List LC)
    (inp : SessionInput) :
    ((archive fs now dot inp).exit = 1 ↔
      fs.kind (pathOf (inp.transcript_path.getD [])) ≠ some FKind.file) ∧
    ((archive fs now dot inp).failure = some AFail.missingTranscript ↔
      fs.kind (pathOf (inp.transcript_path.getD [])) = none) ∧
    ((archive fs now dot inp).failure = some AFail.copyFailed ↔
      fs.kind (pathOf (inp.transcript_path.getD [])) = some FKind.dir) ∧
    (archive fs now dot inp).sessionIdUsed = inp.session_id.getD (toL "unknown") ∧
    (archive fs now dot inp).reasonUsed = inp.reason.getD (toL "unknown") ∧
    (archive fs now dot inp).shortId = (inp.session_id.getD (toL "unknown")).take 8 ∧
    (∀ sid : LC, inp.session_id = some sid → sid.length ≤ 8 →
      (archive fs now dot inp).shortId = sid) ∧
    (inp.transcript_path = none → pathOf (inp.transcript_path.getD []) = toL ".") := by
  have hshort : ∀ sid : LC, inp.session_id = some sid → sid.length ≤ 8 →
      (archive fs now dot inp).shortId = sid := by
    intro sid hsid hlen
    rw [archive_shortId_take, hsid, Option.getD_some]
    exact List.take_of_length_le hlen
  have hdot : inp.transcript_path = none → pathOf (inp.transcript_path.getD []) = toL "." := by
    intro h
    rw [h]
    rfl
  cases hk : fs.kind (pathOf (inp.transcript_path.getD [])) with
  | none =>
    refine ⟨?_, ?_, ?_, ?_, ?_, ?_, hshort, hdot⟩ <;> simp [archive, hk]
  | some k =>
    cases k with
    | file => refine ⟨?_, ?_, ?_, ?_, ?_, ?_, hshort, hdot⟩ <;> simp [archive, hk]
    | dir => refine ⟨?_, ?_, ?_, ?_, ?_, ?_, hshort, hdot⟩ <;> simp [archive, hk]

/-- C10 counterexample: with every field absent the transcript path is the
empty string, `Path('')` is `Path('.')`, and in any filesystem where the
working directory exists (a directory, as it always is for a running process)
the existence check passes: the exit-1 run goes through the failing copy, not
through the transcript-does-not-exist guard the claim assigns it to. -/
theorem archive_empty_path_counterexample :
    (archive ⟨fun s => if s = toL "." then some FKind.dir else none, fun _ => false⟩
        (toL "2024-05-01_1230") [] ⟨none, none, none, none⟩).exit = 1 ∧
    (archive ⟨fun s => if s = toL "." then some FKind.dir else none, fun _ => false⟩
        (toL "2024-05-01_1230") [] ⟨none, none, none, none⟩).failure = some AFail.copyFailed ∧
    (archive ⟨fun s => if s = toL "." then some FKind.dir else none, fun _ => false⟩
        (toL "2024-05-01_1230") [] ⟨none, none, none, none⟩).failure ≠
      some AFail.missingTranscript ∧
    (fun s => if s = toL "." then some FKind.dir else none)
        (pathOf ((none : Option LC).getD [])) ≠ none :=
  ⟨by decide, by decide, by decide, by decide⟩

/-- Witness for C10 at a concrete run: a 3-character session id is used whole
and an absent transcript in an empty filesystem hits the not-found guard. -/
theorem archive_field_defaults_witness :
    (archive ⟨fun _ => none, fun _ => false⟩ (toL "2024-05-01_1230") []
        ⟨some (toL "abc"), none, none, none⟩).shortId = toL "abc" ∧
    (archive ⟨fun _ => none, fun _ => false⟩ (toL "2024-05-01_1230") []
        ⟨some (toL "abc"), none, none, none⟩).exit = 1 ∧
    (archive ⟨fun _ => none, fun _ => false⟩ (toL "2024-05-01_1230") []
        ⟨some (toL "abc"), none, none, none⟩).failure = some AFail.missingTranscript := by
  have h := archive_field_defaults ⟨fun _ => none, fun _ => false⟩ (toL "2024-05-01_1230") []
    ⟨some (toL "abc"), none, none, none⟩
  exact ⟨h.2.2.2.2.2.2.1 (toL "abc") rfl (by decide),
    h.1.mpr (by decide), (h.2.1).mpr (by decide)⟩

end SheetAtlas
